import Mathlib

/- Verification of the log-analysis scripts problem1.py and problem2.py:
   a shallow embedding of their line classifiers, streaming aggregator,
   reservoir sampler, application-directory scanner and report assembly,
   with proofs of the documented properties. Lines and names are modelled
   as lists of characters; the ASCII fragment of the Python character
   classes \w, \d, \s is used (the corpus and every token involved are
   ASCII). -/

/-! ### problem1.py — level classifier

`LEVEL_RE = re.compile(r"\b(INFO|WARN|ERROR|DEBUG)\b")`, used with
`LEVEL_RE.search(line)`. -/

inductive Level where
  | info | warn | error | debug
deriving DecidableEq, Repr

/-- ASCII fragment of the regex class `\w` (letters, digits, underscore). -/
def isWordChar (c : Char) : Bool := c.isAlphanum || c == '_'

def tokOf : Level → List Char
  | .info => ['I', 'N', 'F', 'O']
  | .warn => ['W', 'A', 'R', 'N']
  | .error => ['E', 'R', 'R', 'O', 'R']
  | .debug => ['D', 'E', 'B', 'U', 'G']

/-- `tok` occurs at the head of `s`, followed by a word boundary (end of
string, or a non-word character). This is the regex fragment
`TOKEN\b` matched at one position. -/
def tokHere : List Char → List Char → Bool
  | [], [] => true
  | [], c :: _ => !isWordChar c
  | _ :: _, [] => false
  | t :: ts, c :: cs => c == t && tokHere ts cs

/-- The four alternatives of `LEVEL_RE`, tried in the order they are
written in the pattern. -/
def tryTokens (s : List Char) : Option Level :=
  if tokHere (tokOf .info) s then some .info
  else if tokHere (tokOf .warn) s then some .warn
  else if tokHere (tokOf .error) s then some .error
  else if tokHere (tokOf .debug) s then some .debug
  else none

/-- The `\b` before the group: it holds at a position whose preceding
character (`none` at the start of the line) is not a word character.
(Every alternative starts with a word character, so the boundary reduces
to this test whenever the token itself can match.) -/
def boundaryOk : Option Char → Bool
  | none => true
  | some c => !isWordChar c

/-- `re.search` of `LEVEL_RE`: try each start position from the left,
carrying the previous character for the leading word boundary. -/
def searchFrom : Option Char → List Char → Option Level
  | _, [] => none
  | prev, c :: rest =>
    match (if boundaryOk prev then tryTokens (c :: rest) else none) with
    | some lv => some lv
    | none => searchFrom (some c) rest

def levelSearch (line : List Char) : Option Level := searchFrom none line

/-- The character just before position `i` of `s`, where `prev` is the
character immediately before `s` itself (`none` at the start of a line). -/
def charBefore (prev : Option Char) (s : List Char) : Nat → Option Char
  | 0 => prev
  | i + 1 => (s.drop i).head?

/-- Auxiliary occurrence predicate threaded through the search recursion:
the token of `lv` matches at position `i` of `s` with word boundaries on
both sides, `prev` being the character before `s`. -/
def OccAux (prev : Option Char) (s : List Char) (i : Nat) (lv : Level) : Prop :=
  boundaryOk (charBefore prev s i) = true ∧ tokHere (tokOf lv) (s.drop i) = true

/-- Modelled from the spec's words: the token of `lv` appears in `line`
at position `i` as a standalone word — the characters adjacent to the
token on either side, when they exist, are not word characters. -/
def StandaloneOccAt (line : List Char) (i : Nat) (lv : Level) : Prop :=
  ∃ pre post, line = pre ++ tokOf lv ++ post ∧ pre.length = i ∧
    (∀ c, pre.getLast? = some c → isWordChar c = false) ∧
    (∀ c, post.head? = some c → isWordChar c = false)

theorem tokOf_ne_nil (lv : Level) : tokOf lv ≠ [] := by
  cases lv <;> simp [tokOf]

theorem tokHere_nil (lv : Level) : tokHere (tokOf lv) [] = false := by
  cases lv <;> rfl

theorem tokHere_iff (tok s : List Char) :
    tokHere tok s = true ↔
      ∃ rest, s = tok ++ rest ∧ ∀ c, rest.head? = some c → isWordChar c = false := by
  induction tok generalizing s with
  | nil =>
    cases s with
    | nil => simp [tokHere]
    | cons c cs =>
      simp only [tokHere, List.nil_append, Bool.not_eq_true']
      constructor
      · intro h
        exact ⟨c :: cs, rfl, by intro d hd; simp [List.head?] at hd; rw [← hd]; exact h⟩
      · rintro ⟨rest, hr, hh⟩
        subst hr
        exact hh c rfl
  | cons t ts ih =>
    cases s with
    | nil =>
      simp only [tokHere, List.cons_append]
      constructor
      · intro h; cases h
      · rintro ⟨rest, hr, -⟩; cases hr
    | cons c cs =>
      simp only [tokHere, Bool.and_eq_true, beq_iff_eq, ih, List.cons_append]
      constructor
      · rintro ⟨hc, rest, hr, hh⟩
        exact ⟨rest, by rw [hc, hr], hh⟩
      · rintro ⟨rest, hr, hh⟩
        obtain ⟨h1, h2⟩ := List.cons.injEq .. ▸ hr
        exact ⟨h1, rest, h2, hh⟩

theorem tryTokens_none_iff (s : List Char) :
    tryTokens s = none ↔ ∀ lv, tokHere (tokOf lv) s = false := by
  unfold tryTokens
  split_ifs with h1 h2 h3 h4
  · exact ⟨nofun, fun h => Bool.noConfusion (h .info ▸ h1)⟩
  · exact ⟨nofun, fun h => Bool.noConfusion (h .warn ▸ h2)⟩
  · exact ⟨nofun, fun h => Bool.noConfusion (h .error ▸ h3)⟩
  · exact ⟨nofun, fun h => Bool.noConfusion (h .debug ▸ h4)⟩
  · refine ⟨fun _ lv => ?_, fun _ => rfl⟩
    cases lv
    · simpa using h1
    · simpa using h2
    · simpa using h3
    · simpa using h4

theorem tryTokens_some (s : List Char) (lv : Level) :
    tryTokens s = some lv → tokHere (tokOf lv) s = true := by
  unfold tryTokens
  split_ifs with h1 h2 h3 h4 <;> intro h <;>
    first
      | (injection h with h; subst h; assumption)
      | cases h

theorem charBefore_cons (prev : Option Char) (c : Char) (cs : List Char) (i : Nat) :
    charBefore prev (c :: cs) (i + 1) = charBefore (some c) cs i := by
  cases i <;> rfl

theorem occAux_cons (prev : Option Char) (c : Char) (cs : List Char) (i : Nat) (lv : Level) :
    OccAux prev (c :: cs) (i + 1) lv ↔ OccAux (some c) cs i lv := by
  unfold OccAux
  rw [charBefore_cons]
  rfl

theorem searchFrom_none_iff (s : List Char) (prev : Option Char) :
    searchFrom prev s = none ↔ ∀ i lv, ¬ OccAux prev s i lv := by
  induction s generalizing prev with
  | nil =>
    simp only [searchFrom, true_iff]
    intro i lv h
    have := h.2
    rw [List.drop_nil, tokHere_nil] at this
    cases this
  | cons c cs ih =>
    constructor
    · intro h i lv hocc
      unfold searchFrom at h
      rcases hif : (if boundaryOk prev then tryTokens (c :: cs) else none) with - | lv'
      · rw [hif] at h
        simp only at h
        cases i with
        | zero =>
          obtain ⟨hb, ht⟩ := hocc
          simp only [charBefore] at hb
          rw [hb, if_pos rfl] at hif
          rw [List.drop_zero] at ht
          rw [(tryTokens_none_iff _).mp hif lv] at ht
          cases ht
        | succ j =>
          exact (ih (some c)).mp h j lv ((occAux_cons ..).mp hocc)
      · rw [hif] at h
        simp at h
    · intro h
      unfold searchFrom
      rcases hif : (if boundaryOk prev then tryTokens (c :: cs) else none) with - | lv'
      · simp only
        exact (ih (some c)).mpr fun j lv hocc => h (j + 1) lv ((occAux_cons ..).mpr hocc)
      · exfalso
        by_cases hb : boundaryOk prev = true
        · rw [if_pos hb] at hif
          exact h 0 lv' ⟨hb, tryTokens_some _ _ hif⟩
        · rw [if_neg hb] at hif
          cases hif

theorem searchFrom_some (s : List Char) (prev : Option Char) (lv : Level) :
    searchFrom prev s = some lv →
      ∃ i, OccAux prev s i lv ∧ ∀ j lv', OccAux prev s j lv' → i ≤ j := by
  induction s generalizing prev with
  | nil => intro h; cases h
  | cons c cs ih =>
    intro h
    unfold searchFrom at h
    rcases hif : (if boundaryOk prev then tryTokens (c :: cs) else none) with - | lv'
    · rw [hif] at h
      simp only at h
      obtain ⟨i, hocc, hmin⟩ := ih (some c) h
      refine ⟨i + 1, (occAux_cons ..).mpr hocc, ?_⟩
      intro j lv' hj
      cases j with
      | zero =>
        exfalso
        obtain ⟨hb, ht⟩ := hj
        simp only [charBefore] at hb
        rw [hb, if_pos rfl] at hif
        rw [List.drop_zero] at ht
        rw [(tryTokens_none_iff _).mp hif lv'] at ht
        cases ht
      | succ j' =>
        exact Nat.succ_le_succ (hmin j' lv' ((occAux_cons ..).mp hj))
    · rw [hif] at h
      injection h with h
      subst h
      by_cases hb : boundaryOk prev = true
      · rw [if_pos hb] at hif
        exact ⟨0, ⟨hb, by simpa using tryTokens_some _ _ hif⟩, fun j lv' _ => Nat.zero_le j⟩
      · rw [if_neg hb] at hif
        cases hif

theorem charBefore_take (line : List Char) :
    ∀ i, i ≤ line.length → (line.take i).getLast? = charBefore none line i := by
  induction line with
  | nil =>
    intro i hi
    have h0 : i = 0 := Nat.le_zero.mp hi
    subst h0
    rfl
  | cons c cs ih =>
    intro i hi
    match i with
    | 0 => rfl
    | 1 => rfl
    | j + 2 =>
      cases cs with
      | nil => simp at hi
      | cons d ds =>
        have h1 : j + 1 ≤ (d :: ds).length := by
          simp only [List.length_cons] at hi ⊢
          omega
        calc ((c :: d :: ds).take (j + 2)).getLast?
            = (c :: d :: ((d :: ds).take (j + 1)).tail).getLast? := rfl
          _ = ((d :: ds).take (j + 1)).getLast? := List.getLast?_cons_cons ..
          _ = charBefore none (d :: ds) (j + 1) := ih (j + 1) h1
          _ = charBefore none (c :: d :: ds) (j + 2) := rfl

theorem occAux_iff (line : List Char) (i : Nat) (lv : Level) :
    OccAux none line i lv ↔ StandaloneOccAt line i lv := by
  constructor
  · rintro ⟨hb, ht⟩
    obtain ⟨rest, hr, hh⟩ := (tokHere_iff _ _).mp ht
    have hlen : i ≤ line.length := by
      by_contra hgt
      push_neg at hgt
      rw [List.drop_eq_nil_of_le (le_of_lt hgt)] at hr
      exact tokOf_ne_nil lv (List.append_eq_nil.mp hr.symm).1
    have hsplit := List.take_append_drop i line
    rw [hr] at hsplit
    refine ⟨line.take i, rest, ?_, ?_, ?_, hh⟩
    · nth_rewrite 1 [← hsplit]
      exact (List.append_assoc ..).symm
    · rw [List.length_take]
      omega
    · intro ch hch
      rw [← charBefore_take line i hlen] at hb
      rw [hch] at hb
      simpa [boundaryOk] using hb
  · rintro ⟨pre, post, hline, hlen, hpre, hpost⟩
    subst hline
    subst hlen
    constructor
    · rw [← charBefore_take _ _ (by simp), List.append_assoc, List.take_left]
      cases hlast : pre.getLast? with
      | none => rfl
      | some ch =>
        simp only [boundaryOk, Bool.not_eq_true']
        exact hpre ch hlast
    · rw [List.append_assoc, List.drop_left]
      exact (tokHere_iff _ _).mpr ⟨post, rfl, hpost⟩

/-- C5: for every line, `LEVEL_RE.search` (level extraction) returns the
leftmost occurrence of one of INFO, WARN, ERROR, DEBUG appearing as a
standalone word (word boundaries on both sides), and returns no level
when no such standalone occurrence exists; in particular the line
`random text ERRORISH` yields no level. -/
theorem c5_level_extraction_leftmost_standalone :
    (∀ line : List Char,
      (levelSearch line = none ↔ ∀ i lv, ¬ StandaloneOccAt line i lv) ∧
      (∀ lv, levelSearch line = some lv →
        ∃ i, StandaloneOccAt line i lv ∧ ∀ j lv', StandaloneOccAt line j lv' → i ≤ j)) ∧
    levelSearch (String.toList (r"random text ERRORISH")) = none := by
  refine ⟨fun line => ⟨?_, ?_⟩, ?_⟩
  · rw [levelSearch, searchFrom_none_iff]
    constructor
    · intro h i lv hocc
      exact h i lv ((occAux_iff ..).mpr hocc)
    · intro h i lv hocc
      exact h i lv ((occAux_iff ..).mp hocc)
  · intro lv h
    obtain ⟨i, hocc, hmin⟩ := searchFrom_some _ _ _ h
    exact ⟨i, (occAux_iff ..).mp hocc, fun j lv' hj => hmin j lv' ((occAux_iff ..).mpr hj)⟩
  · decide

/-! ### problem1.py — streaming aggregator (the `main` loop)

```
for path, line in iter_log_lines():
    total_lines += 1
    m = LEVEL_RE.search(line)
    if m:
        level = m.group(1); counts[level] += 1; level_lines += 1
        n_kept += 1
        if len(sample) < k: sample.append((path, line, level))
        else:
            j = random.randint(1, n_kept)
            if j <= k: sample[j - 1] = (path, line, level)
```
The seeded pseudo-random generator is modelled by a function `draws`:
`draws n` is the value `random.randint(1, n)` returns at the single point
of the run where `n_kept = n` (exactly one draw happens per qualifying
line beyond the first `k`). -/

/-- A record of the reservoir sample: `(path, line, level)`. -/
abbrev Rec := List Char × List Char × Level

/-- The mutable state of `main` in problem1.py. `counts` models the
`Counter` (total function into counts, zero when absent). -/
structure AggSt where
  total : Nat
  levelLines : Nat
  counts : Level → Nat
  nKept : Nat
  sample : List Rec

def initAgg : AggSt := ⟨0, 0, fun _ => 0, 0, []⟩

/-- `k = 10` in `main`. -/
def resK : Nat := 10

/-- One iteration of the `main` loop. -/
def p1Step (draws : Nat → Nat) (st : AggSt) (item : List Char × List Char) : AggSt :=
  let st1 : AggSt := { st with total := st.total + 1 }
  match levelSearch item.2 with
  | none => st1
  | some lv =>
    let st2 : AggSt :=
      { st1 with
        counts := fun l => if l = lv then st1.counts l + 1 else st1.counts l,
        levelLines := st1.levelLines + 1,
        nKept := st1.nKept + 1 }
    if st2.sample.length < resK then
      { st2 with sample := st2.sample ++ [(item.1, item.2, lv)] }
    else
      let j := draws st2.nKept
      if j ≤ resK then { st2 with sample := st2.sample.set (j - 1) (item.1, item.2, lv) }
      else st2

def runP1 (draws : Nat → Nat) (stream : List (List Char × List Char)) : AggSt :=
  stream.foldl (p1Step draws) initAgg

/-- `reservoir_sample(iterable, k, predicate)` from problem1.py (the
stand-alone sampler; `random.randint(1, n)` is `draws n`). -/
def rsGo (draws : Nat → Nat) (k : Nat) (p : List Char → Bool) :
    Nat → List (List Char × List Char) → List (List Char × List Char) →
      List (List Char × List Char)
  | _, sample, [] => sample
  | n, sample, item :: rest =>
    if p item.2 then
      if sample.length < k then rsGo draws k p (n + 1) (sample ++ [item]) rest
      else
        let j := draws (n + 1)
        if j ≤ k then rsGo draws k p (n + 1) (sample.set (j - 1) item) rest
        else rsGo draws k p (n + 1) sample rest
    else rsGo draws k p n sample rest

def reservoirSample (draws : Nat → Nat) (stream : List (List Char × List Char))
    (k : Nat) (p : List Char → Bool) : List (List Char × List Char) :=
  rsGo draws k p 0 [] stream

/-- Modelled from the spec: algorithm R with capacity `k` over the
stream of qualifying records, counting records with `n`. The first `k`
records are appended unconditionally; for the `n`-th record with
`n > k`, the uniform draw `j = draws n` from `[1, n]` overwrites sample
slot `j − 1` when `j ≤ k`, otherwise the record is discarded. -/
def algRGo {α : Type} (k : Nat) (draws : Nat → Nat) : Nat → List α → List α → List α
  | _, acc, [] => acc
  | n, acc, r :: rs =>
    if n + 1 ≤ k then algRGo k draws (n + 1) (acc ++ [r]) rs
    else
      let j := draws (n + 1)
      if j ≤ k then algRGo k draws (n + 1) (acc.set (j - 1) r) rs
      else algRGo k draws (n + 1) acc rs

def algR {α : Type} (k : Nat) (draws : Nat → Nat) (recs : List α) : List α :=
  algRGo k draws 0 [] recs

/-- The qualifying records of a stream: the lines in which a level is
detected, tagged with that level. -/
def qualRecs (stream : List (List Char × List Char)) : List Rec :=
  stream.filterMap fun item => (levelSearch item.2).map fun lv => (item.1, item.2, lv)

theorem p1Step_none (draws : Nat → Nat) (st : AggSt) (item : List Char × List Char)
    (h : levelSearch item.2 = none) :
    p1Step draws st item = { st with total := st.total + 1 } := by
  simp [p1Step, h]

theorem p1Step_some_append (draws : Nat → Nat) (st : AggSt) (item : List Char × List Char)
    (lv : Level) (h : levelSearch item.2 = some lv) (hlt : st.sample.length < resK) :
    p1Step draws st item =
      ⟨st.total + 1, st.levelLines + 1,
        fun l => if l = lv then st.counts l + 1 else st.counts l,
        st.nKept + 1, st.sample ++ [(item.1, item.2, lv)]⟩ := by
  simp [p1Step, h, hlt]

theorem p1Step_some_replace (draws : Nat → Nat) (st : AggSt) (item : List Char × List Char)
    (lv : Level) (h : levelSearch item.2 = some lv) (hge : ¬ st.sample.length < resK)
    (hj : draws (st.nKept + 1) ≤ resK) :
    p1Step draws st item =
      ⟨st.total + 1, st.levelLines + 1,
        fun l => if l = lv then st.counts l + 1 else st.counts l,
        st.nKept + 1, st.sample.set (draws (st.nKept + 1) - 1) (item.1, item.2, lv)⟩ := by
  simp [p1Step, h, hge, hj]

theorem p1Step_some_discard (draws : Nat → Nat) (st : AggSt) (item : List Char × List Char)
    (lv : Level) (h : levelSearch item.2 = some lv) (hge : ¬ st.sample.length < resK)
    (hj : ¬ draws (st.nKept + 1) ≤ resK) :
    p1Step draws st item =
      ⟨st.total + 1, st.levelLines + 1,
        fun l => if l = lv then st.counts l + 1 else st.counts l,
        st.nKept + 1, st.sample⟩ := by
  simp [p1Step, h, hge, hj]

theorem qualRecs_cons_none (item : List Char × List Char) (rest : List (List Char × List Char))
    (h : levelSearch item.2 = none) : qualRecs (item :: rest) = qualRecs rest := by
  simp [qualRecs, h]

theorem qualRecs_cons_some (item : List Char × List Char) (rest : List (List Char × List Char))
    (lv : Level) (h : levelSearch item.2 = some lv) :
    qualRecs (item :: rest) = (item.1, item.2, lv) :: qualRecs rest := by
  simp [qualRecs, h]

theorem runP1_sample_eq (draws : Nat → Nat) :
    ∀ (stream : List (List Char × List Char)) (st : AggSt),
      st.sample.length = min resK st.nKept →
      (stream.foldl (p1Step draws) st).sample
        = algRGo resK draws st.nKept st.sample (qualRecs stream) := by
  intro stream
  induction stream with
  | nil =>
    intro st h
    rfl
  | cons item rest ih =>
    intro st h
    rw [List.foldl_cons]
    rcases hls : levelSearch item.2 with - | lv
    · rw [qualRecs_cons_none item rest hls, p1Step_none draws st item hls]
      exact ih _ (by simpa using h)
    · rw [qualRecs_cons_some item rest lv hls]
      by_cases hlt : st.sample.length < resK
      · rw [p1Step_some_append draws st item lv hls hlt]
        have hn1 : st.nKept + 1 ≤ resK := by omega
        simp only [algRGo, if_pos hn1]
        have := ih ⟨st.total + 1, st.levelLines + 1,
          fun l => if l = lv then st.counts l + 1 else st.counts l,
          st.nKept + 1, st.sample ++ [(item.1, item.2, lv)]⟩
          (by simp only [List.length_append, List.length_cons, List.length_nil]; omega)
        simpa using this
      · have hk : st.nKept + 1 > resK := by omega
        by_cases hj : draws (st.nKept + 1) ≤ resK
        · rw [p1Step_some_replace draws st item lv hls hlt hj]
          simp only [algRGo, if_neg (by omega : ¬ st.nKept + 1 ≤ resK), if_pos hj]
          have := ih ⟨st.total + 1, st.levelLines + 1,
            fun l => if l = lv then st.counts l + 1 else st.counts l,
            st.nKept + 1, st.sample.set (draws (st.nKept + 1) - 1) (item.1, item.2, lv)⟩
            (by simp only [List.length_set]; omega)
          simpa using this
        · rw [p1Step_some_discard draws st item lv hls hlt hj]
          simp only [algRGo, if_neg (by omega : ¬ st.nKept + 1 ≤ resK), if_neg hj]
          have := ih ⟨st.total + 1, st.levelLines + 1,
            fun l => if l = lv then st.counts l + 1 else st.counts l,
            st.nKept + 1, st.sample⟩
            (by show st.sample.length = min resK (st.nKept + 1); omega)
          simpa using this

theorem rsGo_eq (draws : Nat → Nat) (k : Nat) (p : List Char → Bool) :
    ∀ (stream : List (List Char × List Char)) (n : Nat)
      (sample : List (List Char × List Char)),
      sample.length = min k n →
      rsGo draws k p n sample stream
        = algRGo k draws n sample (stream.filter fun it => p it.2) := by
  intro stream
  induction stream with
  | nil =>
    intro n sample h
    rfl
  | cons item rest ih =>
    intro n sample h
    by_cases hp : p item.2
    · rw [show (item :: rest).filter (fun it => p it.2)
            = item :: rest.filter (fun it => p it.2) from by simp [List.filter_cons, hp]]
      by_cases hlt : sample.length < k
      · have hn1 : n + 1 ≤ k := by omega
        simp only [rsGo, if_pos hp, if_pos hlt, algRGo, if_pos hn1]
        exact ih (n + 1) (sample ++ [item])
          (by simp only [List.length_append, List.length_cons, List.length_nil]; omega)
      · by_cases hj : draws (n + 1) ≤ k
        · simp only [rsGo, if_pos hp, if_neg hlt, if_pos hj, algRGo,
            if_neg (by omega : ¬ n + 1 ≤ k)]
          exact ih (n + 1) (sample.set (draws (n + 1) - 1) item)
            (by simp only [List.length_set]; omega)
        · simp only [rsGo, if_pos hp, if_neg hlt, if_neg hj, algRGo,
            if_neg (by omega : ¬ n + 1 ≤ k)]
          exact ih (n + 1) sample (by omega)
    · rw [show (item :: rest).filter (fun it => p it.2)
            = rest.filter (fun it => p it.2) from by simp [List.filter_cons, hp]]
      simp only [rsGo, if_neg hp]
      exact ih n sample h

/-- C1: the reservoir sampler follows algorithm R exactly. With the
seeded generator modelled by `draws` (where `draws n`, the value of
`random.randint(1, n_kept)` at the step with `n_kept = n`, lies in
`[1, n]`), the sample held by the `main` loop equals algorithm R with
capacity `K = 10` run over the stream's qualifying records, and the
stand-alone `reservoir_sample` function equals algorithm R with capacity
`k` over the lines satisfying its predicate: the first `K` qualifying
records are appended unconditionally, and the `n`-th with `n > K`
overwrites slot `draws n − 1` iff `draws n ≤ K`, else it is discarded. -/
theorem c1_reservoir_follows_algorithm_R (draws : Nat → Nat)
    (hdraws : ∀ n, resK < n → 1 ≤ draws n ∧ draws n ≤ n) :
    (∀ stream, (runP1 draws stream).sample = algR resK draws (qualRecs stream)) ∧
    (∀ stream k p, reservoirSample draws stream k p
        = algR k draws (stream.filter fun item => p item.2)) := by
  constructor
  · intro stream
    exact runP1_sample_eq draws stream initAgg (by simp [initAgg])
  · intro stream k p
    exact rsGo_eq draws k p stream 0 [] (by simp)

/-- Witness for C1 at a concrete two-line stream and the constant draw
function 1 (a legal value of `randint(1, n)` for every `n ≥ 1`). -/
theorem c1_witness :
    (runP1 (fun _ => 1)
        [(String.toList (r"f1.log"), String.toList (r"a INFO b")),
         (String.toList (r"f1.log"), String.toList (r"nothing here"))]).sample
      = algR resK (fun _ => 1)
          (qualRecs [(String.toList (r"f1.log"), String.toList (r"a INFO b")),
            (String.toList (r"f1.log"), String.toList (r"nothing here"))]) :=
  (c1_reservoir_follows_algorithm_R (fun _ => 1)
    (by
      intro n hn
      constructor
      · show 1 ≤ 1
        exact Nat.le_refl 1
      · show 1 ≤ n
        omega)).1 _

/-- Invariant maintained by every iteration of the `main` loop:
`n_kept = level_lines`, the sample length is `min K level_lines`, and
`level_lines` is the sum of the four per-level counts. -/
def AggInv (st : AggSt) : Prop :=
  st.nKept = st.levelLines ∧
  st.sample.length = min resK st.levelLines ∧
  st.levelLines = st.counts .info + st.counts .warn + st.counts .error + st.counts .debug

theorem p1_inv (draws : Nat → Nat) :
    ∀ (stream : List (List Char × List Char)) (st : AggSt),
      AggInv st → AggInv (stream.foldl (p1Step draws) st) := by
  intro stream
  induction stream with
  | nil =>
    intro st h
    exact h
  | cons item rest ih =>
    intro st h
    obtain ⟨h1, h2, h3⟩ := h
    rw [List.foldl_cons]
    rcases hls : levelSearch item.2 with - | lv
    · rw [p1Step_none draws st item hls]
      exact ih _ ⟨h1, h2, h3⟩
    · by_cases hlt : st.sample.length < resK
      · rw [p1Step_some_append draws st item lv hls hlt]
        refine ih _ ⟨by simp [h1], ?_, ?_⟩
        · show (st.sample ++ [(item.1, item.2, lv)]).length = min resK (st.levelLines + 1)
          rw [List.length_append]
          simp only [List.length_cons, List.length_nil]
          omega
        · show st.levelLines + 1 = _
          cases lv <;> simp <;> omega
      · by_cases hj : draws (st.nKept + 1) ≤ resK
        · rw [p1Step_some_replace draws st item lv hls hlt hj]
          refine ih _ ⟨by simp [h1], ?_, ?_⟩
          · show (st.sample.set (draws (st.nKept + 1) - 1) (item.1, item.2, lv)).length
              = min resK (st.levelLines + 1)
            rw [List.length_set]
            omega
          · show st.levelLines + 1 = _
            cases lv <;> simp <;> omega
        · rw [p1Step_some_discard draws st item lv hls hlt hj]
          refine ih _ ⟨by simp [h1], ?_, ?_⟩
          · show st.sample.length = min resK (st.levelLines + 1)
            omega
          · show st.levelLines + 1 = _
            cases lv <;> simp <;> omega

theorem runP1_total_eq (draws : Nat → Nat) :
    ∀ (stream : List (List Char × List Char)) (st : AggSt),
      (stream.foldl (p1Step draws) st).total = st.total + stream.length := by
  intro stream
  induction stream with
  | nil =>
    intro st
    simp
  | cons item rest ih =>
    intro st
    rw [List.foldl_cons]
    rcases hls : levelSearch item.2 with - | lv
    · rw [p1Step_none draws st item hls, ih]
      simp only [List.length_cons]
      omega
    · by_cases hlt : st.sample.length < resK
      · rw [p1Step_some_append draws st item lv hls hlt, ih]
        simp only [List.length_cons]
        omega
      · by_cases hj : draws (st.nKept + 1) ≤ resK
        · rw [p1Step_some_replace draws st item lv hls hlt hj, ih]
          simp only [List.length_cons]
          omega
        · rw [p1Step_some_discard draws st item lv hls hlt hj, ih]
          simp only [List.length_cons]
          omega

theorem runP1_levelLines_eq (draws : Nat → Nat) :
    ∀ (stream : List (List Char × List Char)) (st : AggSt),
      (stream.foldl (p1Step draws) st).levelLines
        = st.levelLines + (qualRecs stream).length := by
  intro stream
  induction stream with
  | nil =>
    intro st
    simp [qualRecs]
  | cons item rest ih =>
    intro st
    rw [List.foldl_cons]
    rcases hls : levelSearch item.2 with - | lv
    · rw [qualRecs_cons_none item rest hls, p1Step_none draws st item hls, ih]
    · rw [qualRecs_cons_some item rest lv hls]
      simp only [List.length_cons]
      by_cases hlt : st.sample.length < resK
      · rw [p1Step_some_append draws st item lv hls hlt, ih]
        dsimp only
        omega
      · by_cases hj : draws (st.nKept + 1) ≤ resK
        · rw [p1Step_some_replace draws st item lv hls hlt hj, ih]
          dsimp only
          omega
        · rw [p1Step_some_discard draws st item lv hls hlt hj, ih]
          dsimp only
          omega

/-- C3: at every point of the aggregation pass — i.e. after the `main`
loop has consumed any stream whatever (hence after every prefix of any
input stream) — the reservoir's length equals
`min(K, level_lines)` with `K = 10`. -/
theorem c3_sample_size_is_min_K_levelLines (draws : Nat → Nat)
    (stream : List (List Char × List Char)) :
    (runP1 draws stream).sample.length = min resK (runP1 draws stream).levelLines :=
  (p1_inv draws stream initAgg ⟨rfl, by simp [initAgg], rfl⟩).2.1

/-- C4: after the pass, `total_lines` is the stream length,
`level_lines` counts exactly the lines with a detected level,
`total_lines ≥ level_lines`, and `level_lines` is the sum of the four
per-level counts. -/
theorem c4_totals_and_per_level_counts (draws : Nat → Nat)
    (stream : List (List Char × List Char)) :
    (runP1 draws stream).total = stream.length ∧
    (runP1 draws stream).levelLines = (qualRecs stream).length ∧
    (runP1 draws stream).levelLines ≤ (runP1 draws stream).total ∧
    (runP1 draws stream).levelLines =
      (runP1 draws stream).counts .info + (runP1 draws stream).counts .warn +
        (runP1 draws stream).counts .error + (runP1 draws stream).counts .debug := by
  have ht : (runP1 draws stream).total = stream.length := by
    rw [runP1, runP1_total_eq]
    simp [initAgg]
  have hl : (runP1 draws stream).levelLines = (qualRecs stream).length := by
    rw [runP1, runP1_levelLines_eq]
    simp [initAgg]
  refine ⟨ht, hl, ?_, (p1_inv draws stream initAgg ⟨rfl, by simp [initAgg], rfl⟩).2.2⟩
  rw [ht, hl]
  exact List.length_filterMap_le _ _

/-- Witness for C5: applying the characterization at the concrete line
`x INFO y`, whose search result is `some INFO`. -/
theorem c5_witness :
    ∃ i, StandaloneOccAt (String.toList (r"x INFO y")) i Level.info ∧
      ∀ j lv', StandaloneOccAt (String.toList (r"x INFO y")) j lv' → i ≤ j :=
  ((c5_level_extraction_leftmost_standalone.1 _).2 Level.info (by decide))

/-! ### problem1.py — summary percentages

```
def pct(x: int, denom: int) -> str:
    if denom == 0:
        return "0.00%"
    return f"{(x/denom)*100:0.2f}%"
```
The two-decimal rendering of `x/denom*100` is modelled by rounding the
exact rational to a whole number of hundredths, half to even (the
rounding CPython's float formatting performs on the nearest double of
that value). -/

def twoPad (n : Nat) : String := if n < 10 then r"0" ++ toString n else toString n

/-- `x/denom*100` in hundredths, rounded half to even (`denom ≠ 0`). -/
def pctHundredths (x denom : Nat) : Nat :=
  if 2 * (10000 * x % denom) < denom then 10000 * x / denom
  else if denom < 2 * (10000 * x % denom) then 10000 * x / denom + 1
  else if (10000 * x / denom) % 2 == 0 then 10000 * x / denom
  else 10000 * x / denom + 1

/-- Render a number of hundredths as the `0.2f`-plus-`%` string. -/
def renderH (h : Nat) : String :=
  toString (h / 100) ++ r"." ++ twoPad (h % 100) ++ r"%"

def pct (x denom : Nat) : String :=
  if denom == 0 then r"0.00%" else renderH (pctHundredths x denom)

/-- C9: `pct` never divides by zero — a zero denominator yields the
literal string `0.00%`; a non-zero denominator yields `x/denom*100`
rendered to two decimals (the rendered hundredths are within half a
unit of the exact ratio); and on a run with zero matched lines every
per-level percentage of the summary renders as `0.00%`. -/
theorem c9_pct_never_divides_by_zero :
    (∀ x, pct x 0 = r"0.00%") ∧
    (∀ x denom, denom ≠ 0 →
      pct x denom = renderH (pctHundredths x denom) ∧
      2 * ((pctHundredths x denom : Int) * denom - 10000 * x).natAbs ≤ denom) ∧
    (∀ draws stream, (runP1 draws stream).levelLines = 0 →
      ∀ lv, pct ((runP1 draws stream).counts lv) ((runP1 draws stream).levelLines)
        = r"0.00%") := by
  refine ⟨fun x => rfl, fun x denom hd => ⟨by simp [pct, hd], ?_⟩, fun draws stream h0 lv => ?_⟩
  · have hdm := Nat.div_add_mod (10000 * x) denom
    have hdm2 : 10000 * x / denom * denom + 10000 * x % denom = 10000 * x := by
      rw [Nat.mul_comm denom (10000 * x / denom)] at hdm
      exact hdm
    have hlt : (10000 * x) % denom < denom := Nat.mod_lt _ (Nat.pos_of_ne_zero hd)
    have hsucc : (10000 * x / denom + 1) * denom = 10000 * x / denom * denom + denom :=
      Nat.succ_mul _ _
    unfold pctHundredths
    split_ifs with h1 h2 h3 <;> omega
  · rw [h0]
    exact rfl

/-- Witness for C9 at `x = 1`, `denom = 3` (rendering `33.33%`). -/
theorem c9_witness :
    pct 1 3 = renderH (pctHundredths 1 3) ∧
      2 * ((pctHundredths 1 3 : Int) * 3 - 10000 * 1).natAbs ≤ 3 :=
  c9_pct_never_divides_by_zero.2.1 1 3 (by decide)

/-! ### problem2.py — timestamp pattern and parser

`TS_RE = re.compile(r"^(\d{2}/\d{2}/\d{2}\s+\d{2}:\d{2}:\d{2})")`, and

```
def parse_ts(ts: str) -> datetime:
    dt = datetime.strptime(ts, "%y/%m/%d %H:%M:%S")
    if dt.year < 2000:
        dt = dt.replace(year=dt.year + 100)
    return dt
```

`strptime`'s `%y` maps 00–68 to 2000–2068 and 69–99 to 1969–1999; the
field patterns and the `datetime` constructor reject out-of-range month,
day (against the month/leap-year), hour, minute and second, raising
`ValueError` (modelled as `none`). The parser is modelled on the
sublanguage of `TS_RE`-shaped inputs (two digits per field, `\s+`
between date and time), the only strings `problem2.py` passes to it. -/

structure DT where
  year : Nat
  month : Nat
  day : Nat
  hour : Nat
  minute : Nat
  second : Nat
deriving DecidableEq, Repr

def digitVal (c : Char) : Nat := c.toNat - 48

/-- ASCII fragment of the regex class `\s` (0x09–0x0d, 0x1c–0x1f and
the space). -/
def isSpaceChar (c : Char) : Bool :=
  c == ' ' || c == '\t' || c == '\n' || c == '\r' || c == '\x0b' || c == '\x0c'
    || c == '\x1c' || c == '\x1d' || c == '\x1e' || c == '\x1f'

def isLeap (y : Nat) : Bool := (y % 4 == 0 && y % 100 != 0) || y % 400 == 0

def daysInMonth (y m : Nat) : Nat :=
  if m == 2 then (if isLeap y then 29 else 28)
  else if m == 4 || m == 6 || m == 9 || m == 11 then 30
  else 31

/-- Consume exactly two decimal digits, returning their value. -/
def twoDigits : List Char → Option (Nat × List Char)
  | c1 :: c2 :: rest =>
    if c1.isDigit && c2.isDigit then some (10 * digitVal c1 + digitVal c2, rest)
    else none
  | _ => none

def expectChar (ch : Char) : List Char → Option (List Char)
  | c :: rest => if c == ch then some rest else none
  | [] => none

/-- Consume `\s+`: at least one whitespace character, greedily. -/
def stripWs1 : List Char → Option (List Char)
  | c :: rest => if isSpaceChar c then some (rest.dropWhile isSpaceChar) else none
  | [] => none

/-- Range checks of `strptime` plus the `datetime` constructor, then the
`%y` century mapping followed by `parse_ts`'s explicit `+100` fix-up. -/
def mkDT (yy mm dd hh mi ss : Nat) : Option DT :=
  if 1 ≤ mm && mm ≤ 12 && 1 ≤ dd
      && dd ≤ daysInMonth (if yy ≤ 68 then 2000 + yy else 1900 + yy) mm
      && hh ≤ 23 && mi ≤ 59 && ss ≤ 59 then
    some (if (if yy ≤ 68 then 2000 + yy else 1900 + yy) < 2000 then
      ⟨(if yy ≤ 68 then 2000 + yy else 1900 + yy) + 100, mm, dd, hh, mi, ss⟩
    else ⟨if yy ≤ 68 then 2000 + yy else 1900 + yy, mm, dd, hh, mi, ss⟩)
  else none

def parseTs (s : List Char) : Option DT :=
  (twoDigits s).bind fun p1 =>
  (expectChar '/' p1.2).bind fun s2 =>
  (twoDigits s2).bind fun p2 =>
  (expectChar '/' p2.2).bind fun s4 =>
  (twoDigits s4).bind fun p3 =>
  (stripWs1 p3.2).bind fun s6 =>
  (twoDigits s6).bind fun p4 =>
  (expectChar ':' p4.2).bind fun s8 =>
  (twoDigits s8).bind fun p5 =>
  (expectChar ':' p5.2).bind fun s10 =>
  (twoDigits s10).bind fun p6 =>
  if p6.2 = [] then mkDT p1.1 p2.1 p3.1 p4.1 p5.1 p6.1 else none

theorem digitVal_le (c : Char) (h : c.isDigit = true) : digitVal c ≤ 9 := by
  simp only [Char.isDigit, Bool.and_eq_true, decide_eq_true_eq] at h
  obtain ⟨h1, h2⟩ := h
  have g1 : (48 : UInt32).toNat ≤ c.val.toNat := UInt32.le_def.mp h1
  have g2 : c.val.toNat ≤ (57 : UInt32).toNat := UInt32.le_def.mp h2
  have e1 : (48 : UInt32).toNat = 48 := rfl
  have e2 : (57 : UInt32).toNat = 57 := rfl
  show c.val.toNat - 48 ≤ 9
  omega

theorem twoDigits_some (s : List Char) (v : Nat) (rest : List Char)
    (h : twoDigits s = some (v, rest)) :
    v ≤ 99 ∧ ∃ c1 c2, s = c1 :: c2 :: rest ∧ c1.isDigit = true ∧ c2.isDigit = true ∧
      v = 10 * digitVal c1 + digitVal c2 := by
  match s with
  | [] => cases h
  | [c] => cases h
  | c1 :: c2 :: r =>
    simp only [twoDigits] at h
    by_cases hd : (c1.isDigit && c2.isDigit) = true
    · rw [if_pos hd] at h
      injection h with h
      obtain ⟨hv, hr⟩ := Prod.mk.injEq .. ▸ h
      obtain ⟨h1, h2⟩ := Bool.and_eq_true .. ▸ hd
      refine ⟨?_, c1, c2, by rw [hr], h1, h2, hv.symm⟩
      have := digitVal_le c1 h1
      have := digitVal_le c2 h2
      omega
    · rw [if_neg hd] at h
      cases h

theorem mkDT_year (yy mm dd hh mi ss : Nat) (dt : DT) (hyy : yy ≤ 99)
    (h : mkDT yy mm dd hh mi ss = some dt) : dt.year = 2000 + yy := by
  unfold mkDT at h
  split_ifs at h <;> cases h <;> (dsimp only; try omega)

/-- C2: every timestamp string accepted by the parser has its two-digit
year `YY` mapped to year `2000 + YY`; consequently every parsed
timestamp's year lies in `[2000, 2100)`. Moreover the mapping is total
in `YY`: for each `YY` in 00–99 the `TS_RE`-shaped string
`YY/01/01 00:00:00` parses to January 1st, 00:00:00 of year `2000+YY`. -/
theorem c2_two_digit_year_maps_to_2000s :
    (∀ (s : List Char) (dt : DT), parseTs s = some dt →
      (∃ c1 c2 rest, s = c1 :: c2 :: rest ∧ dt.year = 2000 + (10 * digitVal c1 + digitVal c2)) ∧
      2000 ≤ dt.year ∧ dt.year < 2100) ∧
    (∀ yy : Nat, yy < 100 →
      parseTs (Char.ofNat (48 + yy / 10) :: Char.ofNat (48 + yy % 10)
          :: String.toList (r"/01/01 00:00:00"))
        = some ⟨2000 + yy, 1, 1, 0, 0, 0⟩) := by
  constructor
  · intro s dt h
    simp only [parseTs, Option.bind_eq_some] at h
    obtain ⟨p1, hp1, s2, hs2, p2, hp2, s4, hs4, p3, hp3, s6, hs6, p4, hp4, s8, hs8,
      p5, hp5, s10, hs10, p6, hp6, hfin⟩ := h
    rcases p1 with ⟨yy, r1⟩
    obtain ⟨hyy, c1, c2, hs, h1, h2, hv⟩ := twoDigits_some s yy r1 hp1
    have hmk : mkDT yy p2.1 p3.1 p4.1 p5.1 p6.1 = some dt := by
      by_cases hnil : p6.2 = []
      · rw [if_pos hnil] at hfin
        exact hfin
      · rw [if_neg hnil] at hfin
        cases hfin
    have hyear := mkDT_year _ _ _ _ _ _ dt hyy hmk
    exact ⟨⟨c1, c2, r1, hs, by rw [hyear, hv]⟩, by omega, by omega⟩
  · decide

/-- Witness for C2: the spec's scenario line prefix `17/03/29 10:04:41`
parses with year 2017, and `YY = 17` through the generic family. -/
theorem c2_witness :
    ((∃ c1 c2 rest, String.toList (r"17/03/29 10:04:41") = c1 :: c2 :: rest ∧
        (DT.mk 2017 3 29 10 4 41).year = 2000 + (10 * digitVal c1 + digitVal c2)) ∧
      2000 ≤ (DT.mk 2017 3 29 10 4 41).year ∧ (DT.mk 2017 3 29 10 4 41).year < 2100) ∧
    parseTs (Char.ofNat (48 + 17 / 10) :: Char.ofNat (48 + 17 % 10)
        :: String.toList (r"/01/01 00:00:00")) = some ⟨2017, 1, 1, 0, 0, 0⟩ :=
  ⟨c2_two_digit_year_maps_to_2000s.1 _ _ (by decide),
    c2_two_digit_year_maps_to_2000s.2 17 (by decide)⟩

/-! ### problem2.py — application directory identifiers

`APP_DIR_RE = re.compile(r"application_(\d{13})_(\d+)$")`, used with
`APP_DIR_RE.search(app_dir.name)`; `scan_app_times` raises
`ValueError(f"Invalid application dir name: ...")` when the search
fails. -/

def appLit : List Char :=
  ['a', 'p', 'p', 'l', 'i', 'c', 'a', 't', 'i', 'o', 'n', '_']

/-- Consume a literal prefix. -/
def dropLit : List Char → List Char → Option (List Char)
  | [], s => some s
  | _ :: _, [] => none
  | c :: cs, x :: xs => if x == c then dropLit cs xs else none

/-- Strip one final newline, if present: the character position Python's
`$` (without `re.MULTILINE`) accepts besides the very end of the
input. -/
def dropFinalNewline (a : List Char) : List Char :=
  if a.getLast? = some '\n' then a.dropLast else a

/-- The regex tail `(\d+)$`: a non-empty all-digit run filling the rest
of the input except possibly one final newline (before which `$` also
matches); the group excludes that newline. -/
def digitsToEnd (a : List Char) : Option (List Char) :=
  if !(dropFinalNewline a).isEmpty && (dropFinalNewline a).all Char.isDigit then
    some (dropFinalNewline a)
  else none

/-- Match `application_(\d{13})_(\d+)$` at the current position,
returning the two groups. -/
def appMatchAt (s : List Char) : Option (List Char × List Char) :=
  match dropLit appLit s with
  | none => none
  | some rest =>
    if (rest.take 13).length == 13 && (rest.take 13).all Char.isDigit then
      match rest.drop 13 with
      | x :: a =>
        if x == '_' then
          match digitsToEnd a with
          | some ds => some (rest.take 13, ds)
          | none => none
        else none
      | [] => none
    else none

/-- `re.search` of `APP_DIR_RE`: try each start position from the left
(the `$` anchor is part of `appMatchAt`). -/
def appDirSearch : List Char → Option (List Char × List Char)
  | [] => none
  | c :: t =>
    match appMatchAt (c :: t) with
    | some r => some r
    | none => appDirSearch t

/-- Modelled from the spec's words: the name ends in
`application_<13 digits>_<digits>` (a non-empty all-digit app number). -/
def EndsWithAppId (name : List Char) : Prop :=
  ∃ pre c a, name = pre ++ appLit ++ c ++ '_' :: a ∧
    c.length = 13 ∧ (∀ ch ∈ c, ch.isDigit = true) ∧
    a ≠ [] ∧ (∀ ch ∈ a, ch.isDigit = true)

/-- `TS_RE.match(line)`: anchored at the start of the line; on success
returns group 1, the matched prefix `\d{2}/\d{2}/\d{2}\s+\d{2}:\d{2}:\d{2}`
(whatever follows it on the line is ignored). -/
def tsMatch (line : List Char) : Option (List Char) :=
  match line with
  | a1 :: a2 :: b1 :: c1 :: c2 :: b2 :: d1 :: d2 :: rest =>
    if a1.isDigit && a2.isDigit && b1 == '/' && c1.isDigit && c2.isDigit && b2 == '/'
        && d1.isDigit && d2.isDigit then
      match rest.dropWhile isSpaceChar with
      | h1 :: h2 :: e1 :: n1 :: n2 :: e2 :: s1 :: s2 :: _ =>
        if !(rest.takeWhile isSpaceChar).isEmpty && h1.isDigit && h2.isDigit && e1 == ':'
            && n1.isDigit && n2.isDigit && e2 == ':' && s1.isDigit && s2.isDigit then
          some ([a1, a2, b1, c1, c2, b2, d1, d2] ++ rest.takeWhile isSpaceChar
            ++ [h1, h2, e1, n1, n2, e2, s1, s2])
        else none
      | _ => none
    else none
  | _ => none

/-- Python `datetime` comparison: lexicographic on the fields. -/
def dtLt (x y : DT) : Bool :=
  if x.year ≠ y.year then decide (x.year < y.year)
  else if x.month ≠ y.month then decide (x.month < y.month)
  else if x.day ≠ y.day then decide (x.day < y.day)
  else if x.hour ≠ y.hour then decide (x.hour < y.hour)
  else if x.minute ≠ y.minute then decide (x.minute < y.minute)
  else decide (x.second < y.second)

def dtLe (x y : DT) : Bool := !(dtLt y x)

/-- Field bounds guaranteed for every parsed timestamp. -/
def WFdt (x : DT) : Prop :=
  1 ≤ x.month ∧ x.month ≤ 12 ∧ 1 ≤ x.day ∧ x.day ≤ 31 ∧
    x.hour ≤ 23 ∧ x.minute ≤ 59 ∧ x.second ≤ 59

/-- Mixed-radix linearization of a datetime, order-isomorphic to the
field-lexicographic order on well-formed values. -/
def dtKey (x : DT) : Nat :=
  ((((x.year * 13 + x.month) * 32 + x.day) * 24 + x.hour) * 60 + x.minute) * 60 + x.second

theorem dtLt_iff_key (x y : DT) (hx : WFdt x) (hy : WFdt y) :
    dtLt x y = true ↔ dtKey x < dtKey y := by
  obtain ⟨x1, x2, x3, x4, x5, x6, x7⟩ := hx
  obtain ⟨y1, y2, y3, y4, y5, y6, y7⟩ := hy
  unfold dtLt dtKey
  split_ifs <;> simp only [decide_eq_true_eq] <;> (constructor <;> (intro h; omega))

theorem daysInMonth_le (y m : Nat) : daysInMonth y m ≤ 31 := by
  unfold daysInMonth
  split_ifs <;> simp_all <;> omega

theorem mkDT_WF (yy mm dd hh mi ss : Nat) (dt : DT)
    (h : mkDT yy mm dd hh mi ss = some dt) : WFdt dt := by
  unfold mkDT at h
  simp only [Bool.and_eq_true, decide_eq_true_eq] at h
  have hd31a := daysInMonth_le (2000 + yy) mm
  have hd31b := daysInMonth_le (1900 + yy) mm
  unfold WFdt
  split_ifs at h <;> cases h <;> (dsimp only; omega)

theorem parseTs_WF (s : List Char) (dt : DT) (h : parseTs s = some dt) : WFdt dt := by
  simp only [parseTs, Option.bind_eq_some] at h
  obtain ⟨p1, hp1, s2, hs2, p2, hp2, s4, hs4, p3, hp3, s6, hs6, p4, hp4, s8, hs8,
    p5, hp5, s10, hs10, p6, hp6, hfin⟩ := h
  by_cases hnil : p6.2 = []
  · rw [if_pos hnil] at hfin
    exact mkDT_WF _ _ _ _ _ _ dt hfin
  · rw [if_neg hnil] at hfin
    cases hfin

/-! ### problem2.py — `scan_app_times` and the main aggregation -/

/-- An application directory of the corpus: its name and the lines of
each of its `*.log` files. -/
structure AppDir where
  name : List Char
  files : List (List (List Char))
deriving DecidableEq, Repr

/-- The two exceptions `scan_app_times` can raise: the explicit
`ValueError("Invalid application dir name: ...")` and the `ValueError`
out of `datetime.strptime`/`datetime` on a `TS_RE`-matched group with an
out-of-range field. -/
inductive P2Err where
  | invalidDirName (name : List Char)
  | badTimestamp (group : List Char)
deriving DecidableEq, Repr

/-- The inner-loop body of `scan_app_times`: skip a line not matching
`TS_RE`; otherwise parse the group (propagating its `ValueError`) and
lower/raise the running `start_dt`/`end_dt`. -/
def tsStep (acc : Option DT × Option DT) (line : List Char) :
    Except P2Err (Option DT × Option DT) :=
  match tsMatch line with
  | none => .ok acc
  | some g =>
    match parseTs g with
    | none => .error (.badTimestamp g)
    | some dt =>
      .ok
        (match acc.1 with
          | none => some dt
          | some s => if dtLt dt s then some dt else some s,
         match acc.2 with
          | none => some dt
          | some e => if dtLt e dt then some dt else some e)

def foldTs : (Option DT × Option DT) → List (List Char) →
    Except P2Err (Option DT × Option DT)
  | acc, [] => .ok acc
  | acc, l :: ls =>
    match tsStep acc l with
    | .error e => .error e
    | .ok acc2 => foldTs acc2 ls

def scanFiles : (Option DT × Option DT) → List (List (List Char)) →
    Except P2Err (Option DT × Option DT)
  | acc, [] => .ok acc
  | acc, f :: fs =>
    match foldTs acc f with
    | .error e => .error e
    | .ok acc2 => scanFiles acc2 fs

/-- `scan_app_times(app_dir)`: reject a directory name not matched by
`APP_DIR_RE`, else fold all lines of all `.log` files and return
`(cluster_id, application_id_str, app_number, start_dt, end_dt)`. -/
def scanAppTimes (d : AppDir) :
    Except P2Err (List Char × List Char × List Char × Option DT × Option DT) :=
  match appDirSearch d.name with
  | none => .error (.invalidDirName d.name)
  | some (cid, num) =>
    match scanFiles (none, none) d.files with
    | .error e => .error e
    | .ok acc => .ok (cid, appLit ++ cid ++ '_' :: num, num, acc.1, acc.2)

theorem dropLit_some (lit : List Char) :
    ∀ s rest, dropLit lit s = some rest → s = lit ++ rest := by
  induction lit with
  | nil =>
    intro s rest h
    injection h with h
  | cons c cs ih =>
    intro s rest h
    cases s with
    | nil => cases h
    | cons x xs =>
      unfold dropLit at h
      by_cases hx : (x == c) = true
      · rw [if_pos hx] at h
        have hxc : x = c := by simpa using hx
        subst hxc
        rw [List.cons_append, ih xs rest h]
      · rw [if_neg hx] at h
        cases h

theorem dropLit_append (lit : List Char) : ∀ rest, dropLit lit (lit ++ rest) = some rest := by
  induction lit with
  | nil => intro rest; rfl
  | cons c cs ih =>
    intro rest
    simp only [List.cons_append]
    unfold dropLit
    rw [if_pos (by simp), ih rest]

theorem digitsToEnd_some (a ds : List Char) (h : digitsToEnd a = some ds) :
    (a = ds ∨ a = ds ++ ['\n']) ∧ ds ≠ [] ∧ (∀ ch ∈ ds, ch.isDigit = true) := by
  unfold digitsToEnd dropFinalNewline at h
  by_cases hlast : a.getLast? = some '\n'
  · rw [if_pos hlast] at h
    split_ifs at h with hcond
    · injection h with h
      simp only [Bool.and_eq_true, Bool.not_eq_eq_eq_not, Bool.not_false] at hcond
      obtain ⟨hne, hdig⟩ := hcond
      have hanil : a ≠ [] := by
        intro h0
        rw [h0] at hlast
        cases hlast
      have hg : a.getLast hanil = '\n' := by
        rw [List.getLast?_eq_getLast a hanil] at hlast
        injection hlast with hlast
      refine ⟨Or.inr ?_, ?_, ?_⟩
      · rw [← h]
        conv_lhs => rw [← List.dropLast_append_getLast hanil]
        rw [hg]
      · intro h0
        rw [h0] at h
        rw [h] at hne
        simp at hne
      · rw [← h]
        exact (List.all_eq_true ..).mp hdig
  · rw [if_neg hlast] at h
    split_ifs at h with hcond
    · injection h with h
      simp only [Bool.and_eq_true, Bool.not_eq_eq_eq_not, Bool.not_false] at hcond
      obtain ⟨hne, hdig⟩ := hcond
      refine ⟨Or.inl h, ?_, ?_⟩
      · intro h0
        rw [h0] at h
        rw [h] at hne
        simp at hne
      · rw [← h]
        exact (List.all_eq_true ..).mp hdig

theorem digitsToEnd_of (ds : List Char) (hne : ds ≠ [])
    (hdig : ∀ ch ∈ ds, ch.isDigit = true) :
    digitsToEnd ds = some ds ∧ digitsToEnd (ds ++ ['\n']) = some ds := by
  have hlast1 : ¬ ds.getLast? = some '\n' := by
    intro hc
    rw [List.getLast?_eq_getLast ds hne] at hc
    injection hc with hc
    have := hdig _ (List.getLast_mem hne)
    rw [hc] at this
    cases this
  have hempty : ds.isEmpty = false := by
    cases ds with
    | nil => exact absurd rfl hne
    | cons x t => rfl
  constructor
  · unfold digitsToEnd dropFinalNewline
    rw [if_neg hlast1]
    rw [if_pos]
    rw [Bool.and_eq_true, Bool.not_eq_eq_eq_not, Bool.not_true]
    exact ⟨hempty, (List.all_eq_true ..).mpr hdig⟩
  · have hlast2 : (ds ++ ['\n']).getLast? = some '\n' := by
      rw [List.getLast?_concat]
    have hdl : (ds ++ ['\n']).dropLast = ds := List.dropLast_concat ..
    unfold digitsToEnd dropFinalNewline
    rw [if_pos hlast2, hdl]
    rw [if_pos]
    rw [Bool.and_eq_true, Bool.not_eq_eq_eq_not, Bool.not_true]
    exact ⟨hempty, (List.all_eq_true ..).mpr hdig⟩

theorem appMatchAt_some (s c a : List Char) (h : appMatchAt s = some (c, a)) :
    (s = appLit ++ c ++ '_' :: a ∨ s = appLit ++ c ++ '_' :: (a ++ ['\n'])) ∧
      c.length = 13 ∧ (∀ ch ∈ c, ch.isDigit = true) ∧
      a ≠ [] ∧ (∀ ch ∈ a, ch.isDigit = true) := by
  unfold appMatchAt at h
  rcases hdl : dropLit appLit s with - | rest
  · rw [hdl] at h
    cases h
  · rw [hdl] at h
    simp only [] at h
    split_ifs at h with h1
    · rcases hdr : rest.drop 13 with - | ⟨x, t⟩
      · rw [hdr] at h
        cases h
      · rw [hdr] at h
        simp only [] at h
        split_ifs at h with h2
        · rcases hde : digitsToEnd t with - | ds
          · rw [hde] at h
            cases h
          · rw [hde] at h
            injection h with h
            have hc : rest.take 13 = c := congrArg Prod.fst h
            have ha' : ds = a := congrArg Prod.snd h
            simp only [Bool.and_eq_true] at h1
            obtain ⟨hlen, hdigc⟩ := h1
            have hx' : x = '_' := by simpa using h2
            subst hx'
            rw [ha'] at hde
            obtain ⟨htail, hdne, hdd⟩ := digitsToEnd_some t a hde
            have hrest : rest = rest.take 13 ++ '_' :: t := by
              conv_lhs => rw [← List.take_append_drop 13 rest]
              rw [hdr]
            have hsplit : s = appLit ++ (rest.take 13 ++ '_' :: t) := by
              rw [dropLit_some appLit s rest hdl, ← hrest]
            refine ⟨?_, ?_, ?_, hdne, hdd⟩
            · rcases htail with ht | ht
              · left
                rw [hsplit, ht, ← hc]
                exact (List.append_assoc ..).symm
              · right
                rw [hsplit, ht, ← hc]
                exact (List.append_assoc ..).symm
            · rw [← hc]
              simpa using hlen
            · rw [← hc]
              exact (List.all_eq_true ..).mp hdigc

theorem appMatchAt_of_shape (c a tail : List Char) (hc13 : c.length = 13)
    (hcd : ∀ ch ∈ c, ch.isDigit = true) (ha : a ≠ []) (had : ∀ ch ∈ a, ch.isDigit = true)
    (htail : tail = a ∨ tail = a ++ ['\n']) :
    appMatchAt (appLit ++ c ++ '_' :: tail) = some (c, a) := by
  unfold appMatchAt
  rw [List.append_assoc, dropLit_append]
  have htake : (c ++ '_' :: tail).take 13 = c := by
    rw [← hc13, List.take_left]
  have hdrop : (c ++ '_' :: tail).drop 13 = '_' :: tail := by
    rw [← hc13, List.drop_left]
  simp only []
  rw [htake, hdrop]
  have hcond1 : ((c.length == 13) && c.all Char.isDigit) = true := by
    rw [Bool.and_eq_true]
    exact ⟨by simp [hc13], (List.all_eq_true ..).mpr hcd⟩
  rw [if_pos hcond1]
  simp only []
  rw [if_pos (by simp : ('_' == '_') = true)]
  obtain ⟨hplain, hnl⟩ := digitsToEnd_of a ha had
  rcases htail with ht | ht <;> rw [ht]
  · rw [hplain]
  · rw [hnl]

theorem appMatchAt_search (s : List Char) (r : List Char × List Char)
    (h : appMatchAt s = some r) : appDirSearch s = some r := by
  cases s with
  | nil => simp [appMatchAt, appLit, dropLit] at h
  | cons c t =>
    unfold appDirSearch
    rw [h]

theorem appDirSearch_some (name : List Char) :
    ∀ c a, appDirSearch name = some (c, a) →
      ∃ pre, (name = pre ++ appLit ++ c ++ '_' :: a ∨
          name = pre ++ appLit ++ c ++ '_' :: (a ++ ['\n'])) ∧
        c.length = 13 ∧ (∀ ch ∈ c, ch.isDigit = true) ∧ a ≠ [] ∧
        (∀ ch ∈ a, ch.isDigit = true) := by
  induction name with
  | nil => intro c a h; cases h
  | cons ch t ih =>
    intro c a h
    unfold appDirSearch at h
    rcases hm : appMatchAt (ch :: t) with - | r
    · rw [hm] at h
      simp only [] at h
      obtain ⟨pre, hp, hrest⟩ := ih c a h
      refine ⟨ch :: pre, ?_, hrest⟩
      rcases hp with hp | hp
      · left
        rw [List.cons_append, List.cons_append, List.cons_append, ← hp]
      · right
        rw [List.cons_append, List.cons_append, List.cons_append, ← hp]
    · rw [hm] at h
      injection h with h
      subst h
      obtain ⟨hs, hrest⟩ := appMatchAt_some _ c a hm
      refine ⟨[], ?_, hrest⟩
      rcases hs with hs | hs
      · left
        rw [List.nil_append, ← hs]
      · right
        rw [List.nil_append, ← hs]

/-- Modelled from the amended claim: the name ends in
`application_<13 digits>_<digits>`, optionally followed by one final
newline (the position Python's `$` also accepts). -/
def EndsWithAppIdNl (name : List Char) : Prop :=
  EndsWithAppId name ∨ ∃ base, name = base ++ ['\n'] ∧ EndsWithAppId base

theorem shape_isSome (c a : List Char) (hc13 : c.length = 13)
    (hcd : ∀ ch ∈ c, ch.isDigit = true) (ha : a ≠ []) (had : ∀ ch ∈ a, ch.isDigit = true)
    (tail : List Char) (htail : tail = a ∨ tail = a ++ ['\n']) :
    ∀ pre, (appDirSearch (pre ++ appLit ++ c ++ '_' :: tail)).isSome = true := by
  intro pre
  induction pre with
  | nil =>
    rw [List.nil_append]
    rw [appMatchAt_search _ _ (appMatchAt_of_shape c a tail hc13 hcd ha had htail)]
    rfl
  | cons p ps ih =>
    rw [List.cons_append, List.cons_append, List.cons_append]
    unfold appDirSearch
    rcases hm : appMatchAt (p :: (ps ++ appLit ++ c ++ '_' :: tail)) with - | r
    · simp only []
      rw [← List.cons_append, ← List.cons_append, ← List.cons_append] at hm
      simp only [List.cons_append] at ih ⊢
      exact ih
    · rfl

theorem endsWithNl_isSome (name : List Char) (h : EndsWithAppIdNl name) :
    (appDirSearch name).isSome = true := by
  rcases h with h | ⟨base, hbase, h⟩
  · obtain ⟨pre, c, a, hname, hc13, hcd, ha, had⟩ := h
    subst hname
    exact shape_isSome c a hc13 hcd ha had a (Or.inl rfl) pre
  · obtain ⟨pre, c, a, hname, hc13, hcd, ha, had⟩ := h
    subst hname
    subst hbase
    have hre : (pre ++ appLit ++ c ++ '_' :: a) ++ ['\n']
        = pre ++ appLit ++ c ++ '_' :: (a ++ ['\n']) := by
      simp [List.append_assoc]
    rw [hre]
    exact shape_isSome c a hc13 hcd ha had (a ++ ['\n']) (Or.inr rfl) pre

theorem search_some_endsNl (name : List Char) (c a : List Char)
    (h : appDirSearch name = some (c, a)) : EndsWithAppIdNl name := by
  obtain ⟨pre, hp, hc13, hcd, ha, had⟩ := appDirSearch_some name c a h
  rcases hp with hp | hp
  · exact Or.inl ⟨pre, c, a, hp, hc13, hcd, ha, had⟩
  · refine Or.inr ⟨pre ++ appLit ++ c ++ '_' :: a, ?_, pre, c, a, rfl, hc13, hcd, ha, had⟩
    rw [hp]
    simp [List.append_assoc]

theorem tsStep_error (acc : Option DT × Option DT) (line : List Char) (e : P2Err)
    (h : tsStep acc line = .error e) : ∃ g, e = .badTimestamp g := by
  unfold tsStep at h
  rcases hm : tsMatch line with - | g
  · rw [hm] at h
    cases h
  · rw [hm] at h
    simp only [] at h
    rcases hp : parseTs g with - | dt
    · rw [hp] at h
      injection h with h
      exact ⟨g, h.symm⟩
    · rw [hp] at h
      cases h

theorem foldTs_error (e : P2Err) :
    ∀ (ls : List (List Char)) (acc : Option DT × Option DT),
      foldTs acc ls = .error e → ∃ g, e = .badTimestamp g := by
  intro ls
  induction ls with
  | nil =>
    intro acc h
    cases h
  | cons l ls ih =>
    intro acc h
    unfold foldTs at h
    rcases hs : tsStep acc l with e2 | acc2
    · rw [hs] at h
      simp only [] at h
      injection h with h
      subst h
      exact tsStep_error acc l e2 hs
    · rw [hs] at h
      simp only [] at h
      exact ih acc2 h

theorem scanFiles_error (e : P2Err) :
    ∀ (fs : List (List (List Char))) (acc : Option DT × Option DT),
      scanFiles acc fs = .error e → ∃ g, e = .badTimestamp g := by
  intro fs
  induction fs with
  | nil =>
    intro acc h
    cases h
  | cons f fs ih =>
    intro acc h
    unfold scanFiles at h
    rcases hs : foldTs acc f with e2 | acc2
    · rw [hs] at h
      simp only [] at h
      injection h with h
      subst h
      exact foldTs_error e2 f acc hs
    · rw [hs] at h
      simp only [] at h
      exact ih acc2 h

def c6Name : List Char := String.toList (r"application_1234567890123_000001") ++ ['\n']

theorem endsWith_last_digit (name : List Char) (h : EndsWithAppId name) :
    ∃ ch, name.getLast? = some ch ∧ ch.isDigit = true := by
  obtain ⟨pre, c, a, hname, -, -, ha, had⟩ := h
  subst hname
  have hsplit : pre ++ appLit ++ c ++ '_' :: a = (pre ++ appLit ++ c ++ ['_']) ++ a := by
    simp
  rw [hsplit, List.getLast?_append_of_ne_nil _ ha, List.getLast?_eq_getLast a ha]
  exact ⟨a.getLast ha, rfl, had _ (List.getLast_mem ha)⟩

/-- Counterexample to C6 as stated: Python's `$` also matches just
before one final newline, so `scan_app_times` on a directory literally
named `application_1234567890123_000001` plus a trailing newline
returns the groups without raising — although that name does not end in
`application_<13 digits>_<digits>`. -/
theorem c6_counterexample :
    (∃ res, scanAppTimes (AppDir.mk c6Name []) = Except.ok res) ∧
      ¬ EndsWithAppId c6Name := by
  constructor
  · exact ⟨_, rfl⟩
  · intro hends
    obtain ⟨ch, hlast, hdig⟩ := endsWith_last_digit c6Name hends
    rw [show c6Name.getLast? = some '\n' from by decide] at hlast
    injection hlast with hlast
    rw [← hlast] at hdig
    cases hdig

/-- C6 (amended): `scan_app_times` raises the fatal "invalid
identifier" `ValueError` exactly when the directory name does not end
in `application_<13 digits>_<digits>` optionally followed by a single
trailing newline (Python's `$` matches at the end of the input and just
before one final newline); on a match it returns the two captured
groups — a 13-digit cluster id and a non-empty digit app number ending
the name (up to that optional newline, which the group excludes); in
particular `application_1234567890123_000001` yields cluster id
`1234567890123` and app number `000001`. -/
theorem c6_invalid_identifier_iff_amended :
    (∀ d : AppDir,
      scanAppTimes d = Except.error (P2Err.invalidDirName d.name) ↔
        ¬ EndsWithAppIdNl d.name) ∧
    (∀ name c a, appDirSearch name = some (c, a) →
      ∃ pre, (name = pre ++ appLit ++ c ++ '_' :: a ∨
          name = pre ++ appLit ++ c ++ '_' :: (a ++ ['\n'])) ∧
        c.length = 13 ∧ (∀ ch ∈ c, ch.isDigit = true) ∧ a ≠ [] ∧
        (∀ ch ∈ a, ch.isDigit = true)) ∧
    appDirSearch (String.toList (r"application_1234567890123_000001"))
      = some (String.toList (r"1234567890123"), String.toList (r"000001")) := by
  refine ⟨fun d => ⟨?_, ?_⟩, appDirSearch_some, by decide⟩
  · intro h hends
    have hsome := endsWithNl_isSome d.name hends
    unfold scanAppTimes at h
    rcases hsearch : appDirSearch d.name with - | r
    · rw [hsearch] at hsome
      cases hsome
    · rw [hsearch] at h
      rcases r with ⟨cid, num⟩
      rcases hscan : scanFiles (none, none) d.files with e | acc
      · rw [hscan] at h
        simp only [] at h
        injection h with h
        obtain ⟨g, hg⟩ := scanFiles_error e d.files (none, none) hscan
        rw [hg] at h
        cases h
      · rw [hscan] at h
        simp only [] at h
        exact Except.noConfusion h
  · intro hends
    unfold scanAppTimes
    rcases hsearch : appDirSearch d.name with - | r
    · rfl
    · exfalso
      rcases r with ⟨cid, num⟩
      exact hends (search_some_endsNl d.name cid num hsearch)

/-- Witness for the amended C6: the round-trip directory name,
decomposed by the searched match. -/
theorem c6_witness :
    ∃ pre, (String.toList (r"application_1234567890123_000001")
          = pre ++ appLit ++ String.toList (r"1234567890123")
              ++ '_' :: String.toList (r"000001") ∨
        String.toList (r"application_1234567890123_000001")
          = pre ++ appLit ++ String.toList (r"1234567890123")
              ++ '_' :: (String.toList (r"000001") ++ ['\n'])) ∧
      (String.toList (r"1234567890123")).length = 13 ∧
      (∀ ch ∈ String.toList (r"1234567890123"), ch.isDigit = true) ∧
      String.toList (r"000001") ≠ [] ∧
      (∀ ch ∈ String.toList (r"000001"), ch.isDigit = true) :=
  c6_invalid_identifier_iff_amended.2.1 _ _ _ (by decide)

/-! ### problem2.py — `main`: sorted directory walk, per-cluster
aggregation, timeline and cluster-summary tables.

`iter_app_dirs` yields `sorted(RAW_DIR.glob("application_*"))`: the
directories whose name begins with `application_`, in lexicographic
(code-point) order of their names. The timeline rows keep the parsed
`datetime` values that `format_dt` renders; formatting is not modelled.
The `Counter`/dict trio (`cluster_counts`, `cluster_first`,
`cluster_last`) is modelled as total functions plus the list of keys in
insertion order. -/

/-- Python string (code-point lexicographic) order, as used by
`sorted()` on the directory paths. -/
def lexLe : List Char → List Char → Bool
  | [], _ => true
  | _ :: _, [] => false
  | a :: as_, b :: bs =>
    if a.toNat < b.toNat then true
    else if b.toNat < a.toNat then false
    else lexLe as_ bs

/-- `int(s)` on a digit string. -/
def natVal (s : List Char) : Nat := s.foldl (fun acc c => 10 * acc + digitVal c) 0

structure TRow where
  cid : List Char
  appId : List Char
  appNum : List Char
  startDt : DT
  endDt : DT
deriving DecidableEq, Repr

structure SRow where
  cid : List Char
  numApps : Nat
  firstDt : DT
  lastDt : DT
deriving DecidableEq, Repr

structure P2State where
  timeline : List TRow
  clusterKeys : List (List Char)
  counts : List Char → Nat
  firstOf : List Char → Option DT
  lastOf : List Char → Option DT

def initP2 : P2State := ⟨[], [], fun _ => 0, fun _ => none, fun _ => none⟩

/-- The per-application block of the `for app_dir in iter_app_dirs()`
loop body, after the skip test has passed. -/
def updSt (st : P2State) (cid appId num : List Char) (s e : DT) : P2State :=
  { timeline := st.timeline ++ [⟨cid, appId, num, s, e⟩],
    clusterKeys := if cid ∈ st.clusterKeys then st.clusterKeys else st.clusterKeys ++ [cid],
    counts := fun x => if x = cid then st.counts x + 1 else st.counts x,
    firstOf := fun x => if x = cid then
        (match st.firstOf cid with
          | none => some s
          | some f => if dtLt s f then some s else some f)
      else st.firstOf x,
    lastOf := fun x => if x = cid then
        (match st.lastOf cid with
          | none => some e
          | some l => if dtLt l e then some e else some l)
      else st.lastOf x }

def processDir (st : P2State) (d : AppDir) : Except P2Err P2State :=
  match scanAppTimes d with
  | .error e => .error e
  | .ok (cid, appId, num, sOpt, eOpt) =>
    match sOpt, eOpt with
    | some s, some e => .ok (updSt st cid appId num s e)
    | _, _ => .ok st

def processDirs : P2State → List AppDir → Except P2Err P2State
  | st, [] => .ok st
  | st, d :: ds =>
    match processDir st d with
    | .error e => .error e
    | .ok st2 => processDirs st2 ds

/-- The glob `application_*`: names beginning with `application_`. -/
def appGlob (d : AppDir) : Bool := appLit.isPrefixOf d.name

def dirNameLe (x y : AppDir) : Prop := lexLe x.name y.name = true

instance : DecidableRel dirNameLe := fun x y => by
  unfold dirNameLe
  infer_instance

/-- `sorted(RAW_DIR.glob("application_*"))`. -/
def sortedDirs (corpus : List AppDir) : List AppDir :=
  List.insertionSort dirNameLe (corpus.filter appGlob)

structure P2Out where
  timeline : List TRow
  summary : List SRow
deriving DecidableEq, Repr

def cidNumLe (x y : List Char) : Prop := natVal x ≤ natVal y

instance : DecidableRel cidNumLe := fun x y => by
  unfold cidNumLe
  infer_instance

/-- The cluster-summary rows: clusters in ascending `int(cluster_id)`
order, each with its application count and first/last instants. -/
def buildSummary (st : P2State) : List SRow :=
  (List.insertionSort cidNumLe st.clusterKeys).filterMap fun cid =>
    match st.firstOf cid, st.lastOf cid with
    | some f, some l => some ⟨cid, st.counts cid, f, l⟩
    | _, _ => none

def main2 (corpus : List AppDir) : Except P2Err P2Out :=
  match processDirs initP2 (sortedDirs corpus) with
  | .error e => .error e
  | .ok st => .ok ⟨st.timeline, buildSummary st⟩

theorem lexLe_total : ∀ a b : List Char, lexLe a b = true ∨ lexLe b a = true := by
  intro a
  induction a with
  | nil =>
    intro b
    left
    rfl
  | cons x xs ih =>
    intro b
    cases b with
    | nil =>
      right
      rfl
    | cons y ys =>
      unfold lexLe
      by_cases h1 : x.toNat < y.toNat
      · left
        rw [if_pos h1]
      · by_cases h2 : y.toNat < x.toNat
        · right
          rw [if_pos h2]
        · rw [if_neg h1, if_neg h2, if_neg h2, if_neg h1]
          exact ih ys

theorem lexLe_trans : ∀ a b c : List Char,
    lexLe a b = true → lexLe b c = true → lexLe a c = true := by
  intro a
  induction a with
  | nil =>
    intro b c _ _
    rfl
  | cons x xs ih =>
    intro b c h1 h2
    cases b with
    | nil => cases h1
    | cons y ys =>
      cases c with
      | nil => cases h2
      | cons z zs =>
        unfold lexLe at h1 h2 ⊢
        by_cases hxy : x.toNat < y.toNat
        · by_cases hyz : y.toNat < z.toNat
          · rw [if_pos (by omega : x.toNat < z.toNat)]
          · by_cases hzy : z.toNat < y.toNat
            · rw [if_neg hyz, if_pos hzy] at h2
              cases h2
            · rw [if_pos (by omega : x.toNat < z.toNat)]
        · by_cases hyx : y.toNat < x.toNat
          · rw [if_neg hxy, if_pos hyx] at h1
            cases h1
          · by_cases hyz : y.toNat < z.toNat
            · rw [if_pos (by omega : x.toNat < z.toNat)]
            · by_cases hzy : z.toNat < y.toNat
              · rw [if_neg hyz, if_pos hzy] at h2
                cases h2
              · rw [if_neg hxy, if_neg hyx] at h1
                rw [if_neg hyz, if_neg hzy] at h2
                rw [if_neg (by omega : ¬ x.toNat < z.toNat),
                  if_neg (by omega : ¬ z.toNat < x.toNat)]
                exact ih ys zs h1 h2

instance : IsTotal AppDir dirNameLe := ⟨fun x y => lexLe_total x.name y.name⟩

instance : IsTrans AppDir dirNameLe :=
  ⟨fun x y z hxy hyz => lexLe_trans x.name y.name z.name hxy hyz⟩

instance : IsTotal (List Char) cidNumLe := ⟨fun a b => Nat.le_total (natVal a) (natVal b)⟩

instance : IsTrans (List Char) cidNumLe := ⟨fun _ _ _ => Nat.le_trans⟩

/-- The timeline row an application directory contributes, if any. -/
def rowOf (d : AppDir) : Option TRow :=
  match scanAppTimes d with
  | .ok (cid, appId, num, some s, some e) => some ⟨cid, appId, num, s, e⟩
  | _ => none

theorem processDirs_timeline :
    ∀ (ds : List AppDir) (st st' : P2State), processDirs st ds = .ok st' →
      st'.timeline = st.timeline ++ ds.filterMap rowOf := by
  intro ds
  induction ds with
  | nil =>
    intro st st' h
    injection h with h
    rw [← h]
    simp
  | cons d ds ih =>
    intro st st' h
    unfold processDirs processDir at h
    rcases hscan : scanAppTimes d with e | r
    · rw [hscan] at h
      simp only [] at h
      cases h
    · rw [hscan] at h
      obtain ⟨cid, appId, num, sOpt, eOpt⟩ := r
      rcases sOpt with - | s <;> rcases eOpt with - | e <;>
        simp only [List.filterMap_cons, rowOf, hscan] at h ⊢
      · rw [ih st st' h]
      · rw [ih st st' h]
      · rw [ih st st' h]
      · rw [ih _ st' h]
        unfold updSt
        simp

theorem appId_chars (c a : List Char) (hcd : ∀ ch ∈ c, ch.isDigit = true)
    (had : ∀ ch ∈ a, ch.isDigit = true) :
    ∀ ch ∈ appLit ++ c ++ '_' :: a, 10 < ch.toNat := by
  intro ch hch
  have hdig10 : ∀ x : Char, x.isDigit = true → 10 < x.toNat := by
    intro x hx
    simp only [Char.isDigit, Bool.and_eq_true, decide_eq_true_eq] at hx
    obtain ⟨h1, h2⟩ := hx
    have g1 : (48 : UInt32).toNat ≤ x.val.toNat := UInt32.le_def.mp h1
    have e1 : (48 : UInt32).toNat = 48 := rfl
    show 10 < x.val.toNat
    omega
  rcases List.mem_append.mp hch with hm | hm
  · rcases List.mem_append.mp hm with hm | hm
    · have hlit : ∀ x ∈ appLit, 10 < x.toNat := by decide
      exact hlit ch hm
    · exact hdig10 ch (hcd ch hm)
  · rcases List.mem_cons.mp hm with hm | hm
    · rw [hm]
      decide
    · exact hdig10 ch (had ch hm)

/-- Dropping an optional final newline from each side preserves the
string order, provided neither remainder contains a character below
code point 10 (true of every application identifier). -/
theorem lexLe_dropNl :
    ∀ (A B u v : List Char), (u = [] ∨ u = ['\n']) → (v = [] ∨ v = ['\n']) →
      (∀ ch ∈ A, 10 < ch.toNat) → (∀ ch ∈ B, 10 < ch.toNat) →
      lexLe (A ++ u) (B ++ v) = true → lexLe A B = true := by
  intro A
  induction A with
  | nil =>
    intro B u v _ _ _ _ _
    rfl
  | cons x xs ih =>
    intro B u v hu hv hA hB h
    have hx : 10 < x.toNat := hA x (List.mem_cons_self ..)
    cases B with
    | nil =>
      exfalso
      rcases hv with hv | hv <;> subst hv
      · rw [List.nil_append, List.cons_append] at h
        unfold lexLe at h
        cases h
      · rw [List.nil_append, List.cons_append] at h
        unfold lexLe at h
        rw [show Char.toNat '\n' = 10 from rfl] at h
        rw [if_neg (by omega), if_pos (by omega)] at h
        cases h
    | cons y ys =>
      rw [List.cons_append, List.cons_append] at h
      unfold lexLe at h ⊢
      by_cases hxy : x.toNat < y.toNat
      · rw [if_pos hxy]
      · rw [if_neg hxy] at h ⊢
        by_cases hyx : y.toNat < x.toNat
        · rw [if_pos hyx] at h
          cases h
        · rw [if_neg hyx] at h ⊢
          exact ih ys u v hu hv (fun ch hch => hA ch (List.mem_cons_of_mem x hch))
            (fun ch hch => hB ch (List.mem_cons_of_mem y hch)) h

theorem rowOf_appId (d : AppDir) (row : TRow) (hfull : (appMatchAt d.name).isSome = true)
    (h : rowOf d = some row) :
    (d.name = row.appId ∨ d.name = row.appId ++ ['\n']) ∧
      ∀ ch ∈ row.appId, 10 < ch.toNat := by
  rcases hm : appMatchAt d.name with - | r
  · rw [hm] at hfull
    cases hfull
  · rcases r with ⟨c, a⟩
    have hsearch := appMatchAt_search d.name (c, a) hm
    obtain ⟨hname, -, hcd, -, had⟩ := appMatchAt_some d.name c a hm
    unfold rowOf scanAppTimes at h
    rw [hsearch] at h
    simp only [] at h
    rcases hscan : scanFiles (none, none) d.files with e | acc
    · rw [hscan] at h
      simp only [] at h
      cases h
    · rw [hscan] at h
      simp only [] at h
      rcases acc with ⟨sOpt, eOpt⟩
      rcases sOpt with - | s <;> rcases eOpt with - | e <;> simp only [] at h <;> cases h
      show (d.name = appLit ++ c ++ '_' :: a ∨
          d.name = (appLit ++ c ++ '_' :: a) ++ ['\n']) ∧
        ∀ ch ∈ appLit ++ c ++ '_' :: a, 10 < ch.toNat
      refine ⟨?_, appId_chars c a hcd had⟩
      rcases hname with hn | hn
      · exact Or.inl hn
      · right
        rw [hn]
        simp

theorem summaryRow_cid (st : P2State) (cid : List Char) (row : SRow)
    (h : (match st.firstOf cid, st.lastOf cid with
          | some f, some l => some (SRow.mk cid (st.counts cid) f l)
          | _, _ => none) = some row) : row.cid = cid := by
  rcases hf : st.firstOf cid with - | f <;> rcases hl : st.lastOf cid with - | l <;>
    rw [hf, hl] at h <;> simp only [] at h <;> cases h
  rfl

theorem buildSummary_sorted (st : P2State) :
    (buildSummary st).Pairwise fun r1 r2 => natVal r1.cid ≤ natVal r2.cid := by
  unfold buildSummary
  have hs : (List.insertionSort cidNumLe st.clusterKeys).Pairwise cidNumLe :=
    List.sorted_insertionSort cidNumLe st.clusterKeys
  refine List.Pairwise.filterMap _ ?_ hs
  intro a a' r b hb b' hb'
  have hba : b.cid = a := summaryRow_cid st a b hb
  have hba' : b'.cid = a' := summaryRow_cid st a' b' hb'
  rw [hba, hba']
  exact r

/-- C7 (amended): the cluster summary table is sorted in ascending
numeric (`int`) order of cluster id for every corpus; the timeline
table's rows appear in the lexicographic (string) order of the
application directory names — stated here via the rebuilt
`application_id`, equal to the directory name whenever each scanned
directory name is exactly an `application_<13 digits>_<digits>`
identifier (i.e. `APP_DIR_RE` matches at position 0). Numeric ordering
of the timeline's components does not hold in general (see the
counterexample with app numbers 9 and 10). -/
theorem c7_tables_sorting_amended :
    (∀ corpus out, main2 corpus = .ok out →
      out.summary.Pairwise fun r1 r2 => natVal r1.cid ≤ natVal r2.cid) ∧
    (∀ corpus out, (∀ d ∈ corpus, (appMatchAt d.name).isSome = true) →
      main2 corpus = .ok out →
      out.timeline.Pairwise fun r1 r2 => lexLe r1.appId r2.appId = true) := by
  constructor
  · intro corpus out h
    unfold main2 at h
    rcases hp : processDirs initP2 (sortedDirs corpus) with e | st
    · rw [hp] at h
      cases h
    · rw [hp] at h
      simp only [] at h
      injection h with h
      rw [← h]
      exact buildSummary_sorted st
  · intro corpus out hfull h
    unfold main2 at h
    rcases hp : processDirs initP2 (sortedDirs corpus) with e | st
    · rw [hp] at h
      cases h
    · rw [hp] at h
      simp only [] at h
      injection h with h
      rw [← h]
      show st.timeline.Pairwise _
      rw [processDirs_timeline (sortedDirs corpus) initP2 st hp]
      rw [show initP2.timeline = [] from rfl, List.nil_append]
      have hsorted : (sortedDirs corpus).Pairwise dirNameLe :=
        List.sorted_insertionSort dirNameLe (corpus.filter appGlob)
      have hmem : ∀ d ∈ sortedDirs corpus, (appMatchAt d.name).isSome = true := by
        intro d hd
        have : d ∈ corpus.filter appGlob :=
          (List.perm_insertionSort dirNameLe (corpus.filter appGlob)).subset hd
        exact hfull d (List.mem_of_mem_filter this)
      have hsorted2 : (sortedDirs corpus).Pairwise fun x y =>
          dirNameLe x y ∧ (appMatchAt x.name).isSome = true ∧
            (appMatchAt y.name).isSome = true := by
        refine List.Pairwise.imp_of_mem ?_ hsorted
        intro x y hx hy hr
        exact ⟨hr, hmem x hx, hmem y hy⟩
      refine List.Pairwise.filterMap _ ?_ hsorted2
      intro a a' r b hb b' hb'
      obtain ⟨hle, hfa, hfa'⟩ := r
      obtain ⟨hn1, hch1⟩ := rowOf_appId a b hfa hb
      obtain ⟨hn2, hch2⟩ := rowOf_appId a' b' hfa' hb'
      obtain ⟨u, hu, hnu⟩ : ∃ u, (u = [] ∨ u = ['\n']) ∧ a.name = b.appId ++ u := by
        rcases hn1 with hn | hn
        · exact ⟨[], Or.inl rfl, by rw [hn, List.append_nil]⟩
        · exact ⟨['\n'], Or.inr rfl, hn⟩
      obtain ⟨v, hv, hnv⟩ : ∃ v, (v = [] ∨ v = ['\n']) ∧ a'.name = b'.appId ++ v := by
        rcases hn2 with hn | hn
        · exact ⟨[], Or.inl rfl, by rw [hn, List.append_nil]⟩
        · exact ⟨['\n'], Or.inr rfl, hn⟩
      have hle2 : lexLe (b.appId ++ u) (b'.appId ++ v) = true := by
        rw [← hnu, ← hnv]
        exact hle
      exact lexLe_dropNl b.appId b'.appId u v hu hv hch1 hch2 hle2

def c7Corpus : List AppDir :=
  [⟨String.toList (r"application_1234567890123_10"),
      [[String.toList (r"15/01/01 00:00:00 a")]]⟩,
    ⟨String.toList (r"application_1234567890123_9"),
      [[String.toList (r"15/01/02 00:00:00 b")]]⟩]

/-- Modelled from the claim: adjacent timeline rows ascend in numeric
order of the identifier components (cluster id, then app number). -/
def rowNumLe (r1 r2 : TRow) : Bool :=
  decide (natVal r1.cid < natVal r2.cid)
    || ((natVal r1.cid == natVal r2.cid) && decide (natVal r1.appNum ≤ natVal r2.appNum))

def chainB {α : Type} (f : α → α → Bool) : List α → Bool
  | [] => true
  | [_] => true
  | a :: b :: t => f a b && chainB f (b :: t)

/-- The claim C7 evaluated at one corpus: both time-range tables sorted
by their numeric keys (trivially true when the run fails). -/
def c7ClaimAt (corpus : List AppDir) : Bool :=
  match main2 corpus with
  | .ok out =>
    chainB rowNumLe out.timeline
      && chainB (fun r1 r2 => decide (natVal r1.cid ≤ natVal r2.cid)) out.summary
  | .error _ => true

/-- Counterexample to C7 as stated: with applications numbered 9 and 10
in one cluster, `sorted()` puts directory `..._10` before `..._9`
(string order), so the timeline rows are not in ascending numeric order
of their app-number component. -/
theorem c7_counterexample : c7ClaimAt c7Corpus = false := by decide

/-- Witness for the amended C7 at a one-application corpus. -/
theorem c7_witness :
    (P2Out.mk
        [TRow.mk (String.toList (r"1234567890123"))
          (String.toList (r"application_1234567890123_0001"))
          (String.toList (r"0001")) ⟨2015, 6, 29, 10, 4, 41⟩ ⟨2015, 6, 29, 10, 4, 41⟩]
        [SRow.mk (String.toList (r"1234567890123")) 1
          ⟨2015, 6, 29, 10, 4, 41⟩ ⟨2015, 6, 29, 10, 4, 41⟩]).summary.Pairwise
      (fun r1 r2 => natVal r1.cid ≤ natVal r2.cid) ∧
    (P2Out.mk
        [TRow.mk (String.toList (r"1234567890123"))
          (String.toList (r"application_1234567890123_0001"))
          (String.toList (r"0001")) ⟨2015, 6, 29, 10, 4, 41⟩ ⟨2015, 6, 29, 10, 4, 41⟩]
        [SRow.mk (String.toList (r"1234567890123")) 1
          ⟨2015, 6, 29, 10, 4, 41⟩ ⟨2015, 6, 29, 10, 4, 41⟩]).timeline.Pairwise
      (fun r1 r2 => lexLe r1.appId r2.appId = true) :=
  ⟨c7_tables_sorting_amended.1
      [⟨String.toList (r"application_1234567890123_0001"),
        [[String.toList (r"15/06/29 10:04:41 x")]]⟩] _ (by rfl),
    c7_tables_sorting_amended.2
      [⟨String.toList (r"application_1234567890123_0001"),
        [[String.toList (r"15/06/29 10:04:41 x")]]⟩] _ (by decide) (by rfl)⟩

/-- Invariant of the running `(start_dt, end_dt)` pair of
`scan_app_times`: both absent, or both present, well-formed and
ordered. -/
def TsAccOk (acc : Option DT × Option DT) : Prop :=
  match acc.1, acc.2 with
  | none, none => True
  | some s, some e => WFdt s ∧ WFdt e ∧ dtKey s ≤ dtKey e
  | _, _ => False

theorem tsStep_ok (acc : Option DT × Option DT) (line : List Char)
    (acc2 : Option DT × Option DT) (h : tsStep acc line = .ok acc2)
    (hok : TsAccOk acc) : TsAccOk acc2 := by
  unfold tsStep at h
  rcases hm : tsMatch line with - | g
  · rw [hm] at h
    injection h with h
    rw [← h]
    exact hok
  · rw [hm] at h
    simp only [] at h
    rcases hp : parseTs g with - | dt
    · rw [hp] at h
      cases h
    · rw [hp] at h
      simp only [] at h
      injection h with h
      have hdt : WFdt dt := parseTs_WF g dt hp
      rcases acc with ⟨sOpt, eOpt⟩
      rcases sOpt with - | s <;> rcases eOpt with - | e <;> rw [← h] <;>
        unfold TsAccOk at hok ⊢ <;> simp only [] at hok ⊢
      · exact ⟨hdt, hdt, Nat.le_refl _⟩
      · obtain ⟨hs, he, hse⟩ := hok
        by_cases h1 : dtLt dt s = true <;> by_cases h2 : dtLt e dt = true <;>
          simp only [h1, h2, if_true, if_false, Bool.false_eq_true, ite_true, ite_false]
        · exact ⟨hdt, hdt, Nat.le_refl _⟩
        · refine ⟨hdt, he, ?_⟩
          have hk1 : dtKey dt < dtKey s := (dtLt_iff_key dt s hdt hs).mp h1
          have hk2 : ¬ dtKey e < dtKey dt := fun hc =>
            h2 ((dtLt_iff_key e dt he hdt).mpr hc)
          omega
        · refine ⟨hs, hdt, ?_⟩
          have hk1 : ¬ dtKey dt < dtKey s := fun hc =>
            h1 ((dtLt_iff_key dt s hdt hs).mpr hc)
          omega
        · refine ⟨hs, he, hse⟩

theorem foldTs_ok :
    ∀ (ls : List (List Char)) (acc acc2 : Option DT × Option DT),
      foldTs acc ls = .ok acc2 → TsAccOk acc → TsAccOk acc2 := by
  intro ls
  induction ls with
  | nil =>
    intro acc acc2 h hok
    injection h with h
    rw [← h]
    exact hok
  | cons l ls ih =>
    intro acc acc2 h hok
    unfold foldTs at h
    rcases hs : tsStep acc l with e | accm
    · rw [hs] at h
      simp only [] at h
      cases h
    · rw [hs] at h
      simp only [] at h
      exact ih accm acc2 h (tsStep_ok acc l accm hs hok)

theorem scanFiles_ok :
    ∀ (fs : List (List (List Char))) (acc acc2 : Option DT × Option DT),
      scanFiles acc fs = .ok acc2 → TsAccOk acc → TsAccOk acc2 := by
  intro fs
  induction fs with
  | nil =>
    intro acc acc2 h hok
    injection h with h
    rw [← h]
    exact hok
  | cons f fs ih =>
    intro acc acc2 h hok
    unfold scanFiles at h
    rcases hs : foldTs acc f with e | accm
    · rw [hs] at h
      simp only [] at h
      cases h
    · rw [hs] at h
      simp only [] at h
      exact ih accm acc2 h (foldTs_ok f acc accm hs hok)

theorem scanAppTimes_ok (d : AppDir) (cid appId num : List Char) (s e : DT)
    (h : scanAppTimes d = .ok (cid, appId, num, some s, some e)) :
    WFdt s ∧ WFdt e ∧ dtKey s ≤ dtKey e := by
  unfold scanAppTimes at h
  rcases hsearch : appDirSearch d.name with - | r
  · rw [hsearch] at h
    cases h
  · rw [hsearch] at h
    rcases r with ⟨c, a⟩
    simp only [] at h
    rcases hscan : scanFiles (none, none) d.files with er | acc
    · rw [hscan] at h
      simp only [] at h
      cases h
    · rw [hscan] at h
      simp only [] at h
      injection h with h
      have hok : TsAccOk acc := scanFiles_ok d.files (none, none) acc hscan trivial
      have h1 : acc.1 = some s := congrArg (fun t => t.2.2.2.1) h
      have h2 : acc.2 = some e := congrArg (fun t => t.2.2.2.2) h
      unfold TsAccOk at hok
      rw [h1, h2] at hok
      exact hok

/-- Invariant of the cluster maps of `main` in problem2.py. -/
def P2Inv (st : P2State) : Prop :=
  (∀ cid ∈ st.clusterKeys, 1 ≤ st.counts cid ∧
    ∃ f l, st.firstOf cid = some f ∧ st.lastOf cid = some l ∧
      WFdt f ∧ WFdt l ∧ dtKey f ≤ dtKey l) ∧
  (∀ cid, cid ∉ st.clusterKeys →
    st.counts cid = 0 ∧ st.firstOf cid = none ∧ st.lastOf cid = none)

theorem updSt_inv (st : P2State) (cid appId num : List Char) (s e : DT)
    (hs : WFdt s) (he : WFdt e) (hse : dtKey s ≤ dtKey e) (hinv : P2Inv st) :
    P2Inv (updSt st cid appId num s e) := by
  obtain ⟨h1, h2⟩ := hinv
  constructor
  · intro c hc
    by_cases hceq : c = cid
    · subst hceq
      constructor
      · show 1 ≤ (if c = c then st.counts c + 1 else st.counts c)
        rw [if_pos rfl]
        omega
      · by_cases hmem : c ∈ st.clusterKeys
        · obtain ⟨-, f, l, hf, hl, hwf, hwl, hfl⟩ := h1 c hmem
          have hk2 : dtLt s f = false → dtKey f ≤ dtKey s := by
            intro hff
            by_contra hcon
            push_neg at hcon
            rw [(dtLt_iff_key s f hs hwf).mpr hcon] at hff
            cases hff
          have hk4 : dtLt l e = false → dtKey e ≤ dtKey l := by
            intro hff
            by_contra hcon
            push_neg at hcon
            rw [(dtLt_iff_key l e hwl he).mpr hcon] at hff
            cases hff
          have hk1 : dtLt s f = true → dtKey s < dtKey f := (dtLt_iff_key s f hs hwf).mp
          have hfEq : (updSt st c appId num s e).firstOf c
              = (if dtLt s f then some s else some f) := by
            show (if c = c then
                (match st.firstOf c with
                  | none => some s
                  | some f => if dtLt s f then some s else some f)
              else st.firstOf c) = _
            rw [if_pos rfl, hf]
          have hlEq : (updSt st c appId num s e).lastOf c
              = (if dtLt l e then some e else some l) := by
            show (if c = c then
                (match st.lastOf c with
                  | none => some e
                  | some l => if dtLt l e then some e else some l)
              else st.lastOf c) = _
            rw [if_pos rfl, hl]
          cases hb1 : dtLt s f <;> cases hb2 : dtLt l e <;> rw [hb1] at hfEq <;>
            rw [hb2] at hlEq <;>
            simp only [Bool.false_eq_true, ite_true, ite_false, if_true, if_false] at hfEq hlEq
          · exact ⟨f, l, hfEq, hlEq, hwf, hwl, hfl⟩
          · refine ⟨f, e, hfEq, hlEq, hwf, he, ?_⟩
            have := hk2 hb1
            omega
          · refine ⟨s, l, hfEq, hlEq, hs, hwl, ?_⟩
            have := hk4 hb2
            omega
          · exact ⟨s, e, hfEq, hlEq, hs, he, hse⟩
        · obtain ⟨-, hfnone, hlnone⟩ := h2 c hmem
          refine ⟨s, e, ?_, ?_, hs, he, hse⟩
          · show (if c = c then
                (match st.firstOf c with
                  | none => some s
                  | some f => if dtLt s f then some s else some f)
              else st.firstOf c) = some s
            rw [if_pos rfl, hfnone]
          · show (if c = c then
                (match st.lastOf c with
                  | none => some e
                  | some l => if dtLt l e then some e else some l)
              else st.lastOf c) = some e
            rw [if_pos rfl, hlnone]
    · have hcK : c ∈ st.clusterKeys := by
        show c ∈ st.clusterKeys
        have := hc
        unfold updSt at this
        simp only [] at this
        by_cases hmem : cid ∈ st.clusterKeys
        · rwa [if_pos hmem] at this
        · rw [if_neg hmem] at this
          rcases List.mem_append.mp this with hin | hin
          · exact hin
          · exact absurd (List.mem_singleton.mp hin) hceq
      obtain ⟨hcnt, f, l, hf, hl, hwf, hwl, hfl⟩ := h1 c hcK
      refine ⟨?_, f, l, ?_, ?_, hwf, hwl, hfl⟩
      · show 1 ≤ (if c = cid then st.counts c + 1 else st.counts c)
        rw [if_neg hceq]
        exact hcnt
      · show (if c = cid then _ else st.firstOf c) = some f
        rw [if_neg hceq]
        exact hf
      · show (if c = cid then _ else st.lastOf c) = some l
        rw [if_neg hceq]
        exact hl
  · intro c hc
    have hcid : cid ∈ (updSt st cid appId num s e).clusterKeys := by
      show cid ∈ (if cid ∈ st.clusterKeys then st.clusterKeys else st.clusterKeys ++ [cid])
      by_cases hmem : cid ∈ st.clusterKeys
      · rwa [if_pos hmem]
      · rw [if_neg hmem]
        exact List.mem_append.mpr (Or.inr (List.mem_singleton.mpr rfl))
    have hceq : c ≠ cid := fun heq => hc (heq ▸ hcid)
    have hcK : c ∉ st.clusterKeys := by
      intro hin
      apply hc
      show c ∈ (if cid ∈ st.clusterKeys then st.clusterKeys else st.clusterKeys ++ [cid])
      by_cases hmem : cid ∈ st.clusterKeys
      · rwa [if_pos hmem]
      · rw [if_neg hmem]
        exact List.mem_append.mpr (Or.inl hin)
    obtain ⟨hcnt, hfn, hln⟩ := h2 c hcK
    refine ⟨?_, ?_, ?_⟩
    · show (if c = cid then st.counts c + 1 else st.counts c) = 0
      rw [if_neg hceq]
      exact hcnt
    · show (if c = cid then _ else st.firstOf c) = none
      rw [if_neg hceq]
      exact hfn
    · show (if c = cid then _ else st.lastOf c) = none
      rw [if_neg hceq]
      exact hln

theorem processDirs_inv :
    ∀ (ds : List AppDir) (st st' : P2State),
      processDirs st ds = .ok st' → P2Inv st → P2Inv st' := by
  intro ds
  induction ds with
  | nil =>
    intro st st' h hinv
    injection h with h
    rw [← h]
    exact hinv
  | cons d ds ih =>
    intro st st' h hinv
    unfold processDirs processDir at h
    rcases hscan : scanAppTimes d with e | r
    · rw [hscan] at h
      simp only [] at h
      cases h
    · rw [hscan] at h
      obtain ⟨cid, appId, num, sOpt, eOpt⟩ := r
      rcases sOpt with - | s <;> rcases eOpt with - | e <;> simp only [] at h
      · exact ih st st' h hinv
      · exact ih st st' h hinv
      · exact ih st st' h hinv
      · obtain ⟨hws, hwe, hkse⟩ := scanAppTimes_ok d cid appId num s e hscan
        exact ih _ st' h (updSt_inv st cid appId num s e hws hwe hkse hinv)

theorem initP2_inv : P2Inv initP2 := by
  constructor
  · intro cid hc
    cases hc
  · intro cid hc
    exact ⟨rfl, rfl, rfl⟩

theorem buildSummary_row (st : P2State) (hinv : P2Inv st) :
    ∀ row ∈ buildSummary st, 1 ≤ row.numApps ∧ dtLe row.firstDt row.lastDt = true := by
  intro row hrow
  unfold buildSummary at hrow
  obtain ⟨cid, hcid, hmatch⟩ := List.mem_filterMap.mp hrow
  have hcidK : cid ∈ st.clusterKeys :=
    (List.perm_insertionSort cidNumLe st.clusterKeys).subset hcid
  obtain ⟨hcnt, f, l, hf, hl, hwf, hwl, hfl⟩ := hinv.1 cid hcidK
  rw [hf, hl] at hmatch
  simp only [] at hmatch
  injection hmatch with hmatch
  rw [← hmatch]
  refine ⟨hcnt, ?_⟩
  have hfalse : dtLt l f = false := by
    by_contra hcon
    rw [Bool.not_eq_false] at hcon
    have := (dtLt_iff_key l f hwl hwf).mp hcon
    omega
  show dtLe f l = true
  unfold dtLe
  rw [hfalse]
  rfl

/-- C10: every row of the cluster summary has `num_applications ≥ 1`
and `cluster_first_app ≤ cluster_last_app`: a cluster gets a row only
through at least one application with a parsed time range, each such
range has start ≤ end, and the cluster bounds are the min of starts and
max of ends. -/
theorem c10_cluster_summary_row_invariants (corpus : List AppDir) (out : P2Out)
    (h : main2 corpus = .ok out) :
    ∀ row ∈ out.summary, 1 ≤ row.numApps ∧ dtLe row.firstDt row.lastDt = true := by
  unfold main2 at h
  rcases hp : processDirs initP2 (sortedDirs corpus) with e | st
  · rw [hp] at h
    cases h
  · rw [hp] at h
    simp only [] at h
    injection h with h
    rw [← h]
    exact buildSummary_row st (processDirs_inv (sortedDirs corpus) initP2 st hp initP2_inv)

/-- Witness for C10 at a one-application corpus. -/
theorem c10_witness :
    1 ≤ (SRow.mk (String.toList (r"1234567890123")) 1
        ⟨2015, 6, 29, 10, 4, 41⟩ ⟨2015, 6, 29, 10, 4, 41⟩).numApps ∧
      dtLe (SRow.mk (String.toList (r"1234567890123")) 1
          ⟨2015, 6, 29, 10, 4, 41⟩ ⟨2015, 6, 29, 10, 4, 41⟩).firstDt
        (SRow.mk (String.toList (r"1234567890123")) 1
          ⟨2015, 6, 29, 10, 4, 41⟩ ⟨2015, 6, 29, 10, 4, 41⟩).lastDt = true :=
  c10_cluster_summary_row_invariants
    [⟨String.toList (r"application_1234567890123_0001"),
      [[String.toList (r"15/06/29 10:04:41 x")]]⟩] _ (by rfl) _ (by decide)

/-! ### C8 — the corpus walk and unreadable files

`iter_log_lines` (problem1.py) opens each globbed file with
`open(..., encoding="utf-8", errors="ignore")` inside the generator
body and has no try/except: `errors="ignore"` only drops undecodable
bytes during reading (so a file that opens always contributes its
decoded lines), while an `OSError` raised by `open` on an unreadable
file propagates out of the generator and aborts the walk. The reading
loops of `scan_app_times` (problem2.py) have the same structure. A
matched file is modelled by its (decoded) lines plus a `readable` flag
standing for whether `open` succeeds. -/

structure WalkFile where
  path : List Char
  readable : Bool
  lines : List (List Char)
deriving DecidableEq, Repr

/-- `iter_log_lines()` driven to completion by its consumer: the pairs
`(path, line)` of every matched file in order — unless some file fails
to open, in which case the exception propagates and the walk aborts. -/
def iterLogLines : List WalkFile → Except String (List (List Char × List Char))
  | [] => .ok []
  | f :: fs =>
    if f.readable then
      match iterLogLines fs with
      | .error e => .error e
      | .ok rest => .ok ((f.lines.map fun l => (f.path, l)) ++ rest)
    else .error (r"OSError")

def c8Files : List WalkFile :=
  [⟨String.toList (r"a.log"), false, [String.toList (r"boom")]⟩,
    ⟨String.toList (r"b.log"), true, [String.toList (r"x INFO y")]⟩]

/-- The claim C8 evaluated at one input: the walk skips any unreadable
file and still yields the lines of the other matched files. -/
def c8ClaimAt (files : List WalkFile) (expected : List (List Char × List Char)) : Bool :=
  match iterLogLines files with
  | .ok ls => decide (ls = expected)
  | .error _ => false

/-- Counterexample to C8 as stated: with an unreadable `a.log` followed
by a readable `b.log`, the walk does not yield `b.log`'s line — it
aborts (there is no try/except around `open`). -/
theorem c8_counterexample :
    c8ClaimAt c8Files [(String.toList (r"b.log"), String.toList (r"x INFO y"))] = false := by
  rfl

/-- C8 (amended): the walk never skips a file — when every matched file
opens, it yields every line of every file in order (undecodable bytes
are dropped within lines, never whole files); when any matched file
cannot be opened the whole walk aborts with the propagated error. Only
the missing root/archive and an unopenable file are fatal. -/
theorem c8_walk_amended :
    (∀ files : List WalkFile, (∀ f ∈ files, f.readable = true) →
      iterLogLines files
        = .ok (files.flatMap fun f => f.lines.map fun l => (f.path, l))) ∧
    (∀ files : List WalkFile, ∀ f ∈ files, f.readable = false →
      ∃ e, iterLogLines files = .error e) := by
  constructor
  · intro files hall
    induction files with
    | nil => rfl
    | cons f fs ih =>
      unfold iterLogLines
      rw [if_pos (hall f (List.mem_cons_self f fs))]
      rw [ih fun g hg => hall g (List.mem_cons_of_mem f hg)]
      simp only []
      rw [List.cons_bind]
  · intro files
    induction files with
    | nil =>
      intro f hf
      cases hf
    | cons g fs ih =>
      intro f hf hunread
      rcases List.mem_cons.mp hf with heq | hmem
      · subst heq
        unfold iterLogLines
        rw [if_neg (by rw [hunread]; exact Bool.false_ne_true)]
        exact ⟨_, rfl⟩
      · unfold iterLogLines
        by_cases hg : g.readable = true
        · rw [if_pos hg]
          obtain ⟨e, he⟩ := ih f hmem hunread
          rw [he]
          exact ⟨e, rfl⟩
        · rw [if_neg hg]
          exact ⟨_, rfl⟩

/-- Witness for the amended C8: a readable singleton walk yields its
line; the two-file corpus with an unreadable first file errors. -/
theorem c8_witness :
    iterLogLines [WalkFile.mk (String.toList (r"b.log")) true [String.toList (r"x INFO y")]]
        = .ok ([WalkFile.mk (String.toList (r"b.log")) true
              [String.toList (r"x INFO y")]].flatMap
            fun f => f.lines.map fun l => (f.path, l)) ∧
      ∃ e, iterLogLines c8Files = .error e :=
  ⟨c8_walk_amended.1 _ (by decide),
    c8_walk_amended.2 c8Files
      (WalkFile.mk (String.toList (r"a.log")) false [String.toList (r"boom")])
      (by decide) (by rfl)⟩
